import Mathlib

/-!
# Verification of the blockparse repository

Shallow embedding of the blockparse Bitcoin block-validation pipeline:
the wire codec (src/parse.rs), hashing and difficulty targets
(src/hash.rs, src/lib.rs), the merkle-root computation (src/lib.rs), the
validator state machine (src/validator.rs), the ingestion pipeline and
orphanage (src/builder.rs) and the script interpreter (src/script.rs).

Bytes are modelled as `Nat` (a `u8` value is a `Nat` below 256), byte
buffers as `List Nat`, machine integers as `Nat` with explicit `% 2^w`
where the Rust code casts, hash maps as association lists, and the
SHA-256 primitive (the external `hmac_sha256` crate) as an explicit
function parameter `sha : List Nat → List Nat`.  Fallible Rust functions
returning `Result` are modelled with `Option` (the error payloads are
human-readable strings which no caller inspects).
-/

set_option maxRecDepth 100000

namespace Blockparse

/-- A hash value: the raw byte array wrapped by `struct Hash([u8; 32])`
in src/lib.rs.  Modelled as a byte list (length 32 for real hashes). -/
abbrev Hash := List Nat

/-- `Hash::zero` (src/lib.rs): 32 zero bytes. -/
def Hash.zero : Hash := List.replicate 32 0

/-- `Hash::reverse` (src/lib.rs): reverse the byte order. -/
def Hash.reverse (h : Hash) : Hash := List.reverse h

/-- `enum Network` (src/lib.rs). -/
inductive Network where
  | MainNet
  | TestNet3
  | RegTest
deriving DecidableEq, Repr, Inhabited

/-- `struct TransactionInput` (src/lib.rs).  `witness_stuff` is the
optional per-input witness stack. -/
structure TransactionInput where
  txid : Hash
  vout : Nat
  unlock_script : List Nat
  sequence : Nat
  witness_stuff : List (List Nat)
deriving DecidableEq, Repr, Inhabited

/-- `struct TransactionOutput` (src/lib.rs). -/
structure TransactionOutput where
  value : Nat
  lock_script : List Nat
deriving DecidableEq, Repr, Inhabited

/-- `struct Transaction` (src/lib.rs).  `flags` is the one-byte
`TransactionFlags` bitfield (`WITNESS = 0x1`), modelled by its bits. -/
structure Transaction where
  version : Nat
  flags : Nat
  inputs : List TransactionInput
  outputs : List TransactionOutput
  locktime : Nat
deriving DecidableEq, Repr, Inhabited

/-- `Transaction::strip_witness_data` (src/lib.rs): same transaction with
empty flags; the `inputs` vector is cloned as-is (the in-memory witness
stacks are retained, but with empty flags they are never serialized). -/
def Transaction.strip_witness_data (tx : Transaction) : Transaction :=
  { tx with flags := 0 }

/-- `struct BlockHeader` (src/lib.rs). -/
structure BlockHeader where
  version : Nat
  prev_block_hash : Hash
  merkle_root : Hash
  time : Nat
  bits : Nat
  nonce : Nat
deriving DecidableEq, Repr, Inhabited

/-- `struct Block` (src/lib.rs). -/
structure Block where
  network : Network
  header : BlockHeader
  transactions : List Transaction
deriving DecidableEq, Repr, Inhabited

/-! ## The codec (src/parse.rs): serialization

Each Rust `serialize_le(&self, dest: &mut Vec<u8>)` appends bytes to a
sink; the embedding returns the appended byte list, and call sites
concatenate in the same order the Rust code appends. -/

/-- `impl LittleEndianSerialization for u8`, serialization. -/
def serU8 (v : Nat) : List Nat := [v]

/-- `impl LittleEndianSerialization for u16`, serialization: the Rust
code pushes `(v & 0xff) as u8` then `((v >> 8) & 0xff) as u8`. -/
def serU16 (v : Nat) : List Nat := [v % 256, v / 2 ^ 8 % 256]

/-- `impl LittleEndianSerialization for u32`, serialization. -/
def serU32 (v : Nat) : List Nat :=
  [v % 256, v / 2 ^ 8 % 256, v / 2 ^ 16 % 256, v / 2 ^ 24 % 256]

/-- `impl LittleEndianSerialization for u64`, serialization. -/
def serU64 (v : Nat) : List Nat :=
  [v % 256, v / 2 ^ 8 % 256, v / 2 ^ 16 % 256, v / 2 ^ 24 % 256,
   v / 2 ^ 32 % 256, v / 2 ^ 40 % 256, v / 2 ^ 48 % 256, v / 2 ^ 56 % 256]

/-- `impl LittleEndianSerialization for usize`, serialization: the
compact-size encoding.  The `as u8`/`as u16`/`as u32`/`as u64` casts of
the Rust code are the explicit `%` reductions. -/
def serCompact (v : Nat) : List Nat :=
  if v ≤ 0xfc then [v % 256]
  else if v ≤ 0xffff then 0xfd :: serU16 (v % 2 ^ 16)
  else if v ≤ 0xffffffff then 0xfe :: serU32 (v % 2 ^ 32)
  else 0xff :: serU64 (v % 2 ^ 64)

/-- `impl LittleEndianSerialization for Hash`, serialization: the bytes
are appended in reverse order (`self.0.iter().rev()`). -/
def serHash (h : Hash) : List Nat := h.reverse

/-- `impl LittleEndianSerialization for Network`, serialization: the
4-byte magic preambles. -/
def Network.serializeLE : Network → List Nat
  | .MainNet => [0xf9, 0xbe, 0xb4, 0xd9]
  | .TestNet3 => [0x0b, 0x11, 0x09, 0x07]
  | .RegTest => [0xfa, 0xbf, 0xb5, 0xda]

/-- The per-input bytes of `impl LittleEndianSerialization for
Transaction` (src/parse.rs, the first `for input in &self.inputs` loop):
txid, vout, length-prefixed unlock script, sequence. -/
def serInputCore (i : TransactionInput) : List Nat :=
  serHash i.txid ++ serU32 i.vout ++ serCompact i.unlock_script.length
    ++ i.unlock_script ++ serU32 i.sequence

/-- The per-output bytes (the `for output in &self.outputs` loop):
value and length-prefixed lock script. -/
def serOutputCore (o : TransactionOutput) : List Nat :=
  serU64 o.value ++ serCompact o.lock_script.length ++ o.lock_script

/-- The per-input witness bytes (the `if
self.flags.contains(TransactionFlags::WITNESS)` loop): outer count, then
each witness item length-prefixed. -/
def serWitness (i : TransactionInput) : List Nat :=
  serCompact i.witness_stuff.length
    ++ i.witness_stuff.flatMap (fun w => serCompact w.length ++ w)

/-- `impl LittleEndianSerialization for Transaction`, serialization
(src/parse.rs).  When the flags are nonempty a `0x00` marker byte and
the flags byte are emitted before the input count;
`flags.contains(WITNESS)` is `flags % 2 = 1`. -/
def Transaction.serializeLE (tx : Transaction) : List Nat :=
  serU32 tx.version
    ++ (if tx.flags ≠ 0 then [0, tx.flags] else [])
    ++ serCompact tx.inputs.length
    ++ tx.inputs.flatMap serInputCore
    ++ serCompact tx.outputs.length
    ++ tx.outputs.flatMap serOutputCore
    ++ (if tx.flags % 2 = 1 then tx.inputs.flatMap serWitness else [])
    ++ serU32 tx.locktime

/-- `impl LittleEndianSerialization for BlockHeader`, serialization. -/
def BlockHeader.serializeLE (h : BlockHeader) : List Nat :=
  serU32 h.version ++ serHash h.prev_block_hash ++ serHash h.merkle_root
    ++ serU32 h.time ++ serU32 h.bits ++ serU32 h.nonce

/-- The bytes following the size field of a serialized block: header,
transaction count, transactions. -/
def blockBody (b : Block) : List Nat :=
  b.header.serializeLE ++ serCompact b.transactions.length
    ++ b.transactions.flatMap Transaction.serializeLE

/-- `impl LittleEndianSerialization for Block`, serialization
(src/parse.rs).  The Rust code writes a `0u32` placeholder and patches
it afterwards with `end_ix - (size_ix + 4)`, which is exactly the length
of the body written in between; the embedding emits the size directly
(`serU32` already reduces modulo `2^32`, matching the `as u32` cast). -/
def Block.serializeLE (b : Block) : List Nat :=
  b.network.serializeLE ++ serU32 (blockBody b).length ++ blockBody b

/-! ## The codec (src/parse.rs): deserialization

Each Rust `deserialize_le(bytes, ix)` reads at index `ix` and advances
the index; the embedding takes the index and returns `Option (value ×
nextIndex)`, with `none` for `BlockParseError`. -/

/-- `u8::deserialize_le` (src/parse.rs). -/
def deserU8 (bytes : List Nat) (ix : Nat) : Option (Nat × Nat) :=
  if ix + 1 ≤ bytes.length then some (bytes.getD ix 0, ix + 1) else none

/-- `u16::deserialize_le` (src/parse.rs).  The Rust `|` of
disjointly-shifted `u8` values is addition. -/
def deserU16 (bytes : List Nat) (ix : Nat) : Option (Nat × Nat) :=
  if ix + 2 ≤ bytes.length then
    some (bytes.getD (ix + 1) 0 * 2 ^ 8 + bytes.getD ix 0, ix + 2)
  else none

/-- `u32::deserialize_le` (src/parse.rs). -/
def deserU32 (bytes : List Nat) (ix : Nat) : Option (Nat × Nat) :=
  if ix + 4 ≤ bytes.length then
    some (bytes.getD (ix + 3) 0 * 2 ^ 24 + bytes.getD (ix + 2) 0 * 2 ^ 16
      + bytes.getD (ix + 1) 0 * 2 ^ 8 + bytes.getD ix 0, ix + 4)
  else none

/-- `u64::deserialize_le` (src/parse.rs). -/
def deserU64 (bytes : List Nat) (ix : Nat) : Option (Nat × Nat) :=
  if ix + 8 ≤ bytes.length then
    some (bytes.getD (ix + 7) 0 * 2 ^ 56 + bytes.getD (ix + 6) 0 * 2 ^ 48
      + bytes.getD (ix + 5) 0 * 2 ^ 40 + bytes.getD (ix + 4) 0 * 2 ^ 32
      + bytes.getD (ix + 3) 0 * 2 ^ 24 + bytes.getD (ix + 2) 0 * 2 ^ 16
      + bytes.getD (ix + 1) 0 * 2 ^ 8 + bytes.getD ix 0, ix + 8)
  else none

/-- `usize::deserialize_le` (src/parse.rs): compact-size decoding.  The
Rust match on a `u8` is exhaustive over 0..=0xff; values above a byte
cannot occur in `u8` data and fall to `none`. -/
def deserCompact (bytes : List Nat) (ix : Nat) : Option (Nat × Nat) := do
  let (v, ix1) ← deserU8 bytes ix
  if v ≤ 0xfc then some (v, ix1)
  else if v = 0xfd then deserU16 bytes ix1
  else if v = 0xfe then deserU32 bytes ix1
  else if v = 0xff then deserU64 bytes ix1
  else none

/-- `Hash::deserialize_le` (src/parse.rs): 32 bytes, reversed
(`hash[i] = bytes[*ix + 31 - i]`). -/
def deserHash (bytes : List Nat) (ix : Nat) : Option (Hash × Nat) :=
  if ix + 32 ≤ bytes.length then
    some (((bytes.drop ix).take 32).reverse, ix + 32)
  else none

/-- `Network::deserialize_le` (src/parse.rs): a little-endian `u32`
matched against the three magic values. -/
def Network.deserializeLE (bytes : List Nat) (ix : Nat) :
    Option (Network × Nat) := do
  let (magic, ix1) ← deserU32 bytes ix
  if magic = 0xd9b4bef9 then some (.MainNet, ix1)
  else if magic = 0x0709110b then some (.TestNet3, ix1)
  else if magic = 0xdab5bffa then some (.RegTest, ix1)
  else none

/-- `TransactionFlags::deserialize_le` (src/parse.rs): one byte;
`TransactionFlags::from_bits` fails on bits outside `WITNESS = 0x1`. -/
def deserFlags (bytes : List Nat) (ix : Nat) : Option (Nat × Nat) := do
  let (b, ix1) ← deserU8 bytes ix
  if b ≤ 1 then some (b, ix1) else none

/-- `read_bytes` (src/parse.rs). -/
def read_bytes (bytes : List Nat) (ix count : Nat) :
    Option (List Nat × Nat) :=
  if ix + count ≤ bytes.length then
    some ((bytes.drop ix).take count, ix + count)
  else none

/-- `read_bytearray` (src/parse.rs): compact-size count, then that many
bytes. -/
def read_bytearray (bytes : List Nat) (ix : Nat) :
    Option (List Nat × Nat) := do
  let (count, ix1) ← deserCompact bytes ix
  read_bytes bytes ix1 count

/-- The input-reading loop of `Transaction::deserialize_le`
(src/parse.rs): `input_count` iterations, each filling
`witness_stuff` with the empty vector. -/
def readInputs (bytes : List Nat) :
    Nat → Nat → Option (List TransactionInput × Nat)
  | 0, ix => some ([], ix)
  | n + 1, ix => do
    let (txid, ix1) ← deserHash bytes ix
    let (vout, ix2) ← deserU32 bytes ix1
    let (us, ix3) ← read_bytearray bytes ix2
    let (seq, ix4) ← deserU32 bytes ix3
    let (rest, ix5) ← readInputs bytes n ix4
    some (⟨txid, vout, us, seq, []⟩ :: rest, ix5)

/-- The output-reading loop of `Transaction::deserialize_le`. -/
def readOutputs (bytes : List Nat) :
    Nat → Nat → Option (List TransactionOutput × Nat)
  | 0, ix => some ([], ix)
  | n + 1, ix => do
    let (value, ix1) ← deserU64 bytes ix
    let (ls, ix2) ← read_bytearray bytes ix1
    let (rest, ix3) ← readOutputs bytes n ix2
    some (⟨value, ls⟩ :: rest, ix3)

/-- The inner loop of the witness-reading phase: `outer_count`
byte-arrays. -/
def readByteArrays (bytes : List Nat) :
    Nat → Nat → Option (List (List Nat) × Nat)
  | 0, ix => some ([], ix)
  | n + 1, ix => do
    let (w, ix1) ← read_bytearray bytes ix
    let (rest, ix2) ← readByteArrays bytes n ix1
    some (w :: rest, ix2)

/-- The witness-reading phase of `Transaction::deserialize_le`: for each
input in order, read an outer count and that many byte-arrays into its
`witness_stuff`. -/
def readWitnesses (bytes : List Nat) :
    List TransactionInput → Nat → Option (List TransactionInput × Nat)
  | [], ix => some ([], ix)
  | inp :: rest, ix => do
    let (cnt, ix1) ← deserCompact bytes ix
    let (ws, ix2) ← readByteArrays bytes cnt ix1
    let (rest', ix3) ← readWitnesses bytes rest ix2
    some ({ inp with witness_stuff := ws } :: rest', ix3)

/-- The segwit-compatible framing step of `Transaction::deserialize_le`
(src/parse.rs): a zero first count means the next byte is the flags
byte, followed by the true input count; otherwise the count is the
input count and the flags default to empty.  Returns
`(flags, input_count, cursor)`. -/
def deserTxFlags (bytes : List Nat) (count ix : Nat) :
    Option (Nat × Nat × Nat) :=
  if count = 0 then do
    let (f, ixa) ← deserFlags bytes ix
    let (c, ixb) ← deserCompact bytes ixa
    some (f, c, ixb)
  else some (0, count, ix)

/-- The conditional witness-reading phase of
`Transaction::deserialize_le`: only runs when the `WITNESS` flag is
set. -/
def deserTxWitnessPhase (bytes : List Nat) (flags : Nat)
    (inputs : List TransactionInput) (ix : Nat) :
    Option (List TransactionInput × Nat) :=
  if flags % 2 = 1 then readWitnesses bytes inputs ix
  else some (inputs, ix)

/-- `Transaction::deserialize_le` (src/parse.rs). -/
def Transaction.deserializeLE (bytes : List Nat) (ix : Nat) :
    Option (Transaction × Nat) := do
  let (version, ix1) ← deserU32 bytes ix
  let (count, ix2) ← deserCompact bytes ix1
  let (flags, input_count, ix3) ← deserTxFlags bytes count ix2
  let (inputs, ix4) ← readInputs bytes input_count ix3
  let (output_count, ix5) ← deserCompact bytes ix4
  let (outputs, ix6) ← readOutputs bytes output_count ix5
  let (inputs', ix7) ← deserTxWitnessPhase bytes flags inputs ix6
  let (locktime, ix8) ← deserU32 bytes ix7
  some (⟨version, flags, inputs', outputs, locktime⟩, ix8)

/-- `BlockHeader::deserialize_le` (src/parse.rs). -/
def BlockHeader.deserializeLE (bytes : List Nat) (ix : Nat) :
    Option (BlockHeader × Nat) := do
  let (version, ix1) ← deserU32 bytes ix
  let (prev, ix2) ← deserHash bytes ix1
  let (merkle, ix3) ← deserHash bytes ix2
  let (time, ix4) ← deserU32 bytes ix3
  let (bits, ix5) ← deserU32 bytes ix4
  let (nonce, ix6) ← deserU32 bytes ix5
  some (⟨version, prev, merkle, time, bits, nonce⟩, ix6)

/-- The transaction-reading loop of `Block::deserialize_le`. -/
def readTransactions (bytes : List Nat) :
    Nat → Nat → Option (List Transaction × Nat)
  | 0, ix => some ([], ix)
  | n + 1, ix => do
    let (tx, ix1) ← Transaction.deserializeLE bytes ix
    let (rest, ix2) ← readTransactions bytes n ix1
    some (tx :: rest, ix2)

/-- `Block::deserialize_le` (src/parse.rs): network magic, size, header,
transaction count, transactions; finally the cursor must equal the
framed end (`*ix != end` is a parse error). -/
def Block.deserializeLE (bytes : List Nat) (ix : Nat) :
    Option (Block × Nat) := do
  let (network, ix1) ← Network.deserializeLE bytes ix
  let (size, ix2) ← deserU32 bytes ix1
  let endIx := ix2 + size
  let (header, ix3) ← BlockHeader.deserializeLE bytes ix2
  let (txCount, ix4) ← deserCompact bytes ix3
  let (txs, ix5) ← readTransactions bytes txCount ix4
  if ix5 = endIx then some (⟨network, header, txs⟩, ix5) else none

/-! ## Difficulty target (src/lib.rs, `Hash::from_bits`) -/

/-- `Hash::from_bits` (src/lib.rs), with the three iterations of the
byte-placement loop unrolled.  `List.set` is a no-op past the end of the
list, matching the `if ix < target_bytes.len()` guard; a break fires
when `ix == 0` before the decrement.  After the third iteration the loop
exits regardless and the leftover coefficient is checked. -/
def Hash.from_bits (bits : Nat) : Option Hash :=
  let target0 : Hash := List.replicate 32 0
  let c0 := bits % 2 ^ 24
  if c0 = 0 then some target0
  else
    let exponent := bits / 2 ^ 24
    if exponent > 34 then none
    else
      let ix0 := 34 - exponent
      let t1 := target0.set ix0 (c0 % 256)
      let c1 := c0 / 256
      if ix0 = 0 then (if c1 ≠ 0 then none else some t1)
      else
        let ix1 := ix0 - 1
        let t2 := t1.set ix1 (c1 % 256)
        let c2 := c1 / 256
        if ix1 = 0 then (if c2 ≠ 0 then none else some t2)
        else
          let ix2 := ix1 - 1
          let t3 := t2.set ix2 (c2 % 256)
          let c3 := c2 / 256
          if c3 ≠ 0 then none else some t3

/-! ## Hashing (src/hash.rs) and the merkle computation (src/lib.rs)

`Sha` is the raw SHA-256 primitive of the external `hmac_sha256` crate
(`hmac_sha256::Hash::hash`), left as a parameter of the embedding. -/

/-- The type of the raw SHA-256 primitive. -/
abbrev Sha := List Nat → List Nat

/-- `double_sha256` (src/hash.rs): serialize, hash twice, reverse. -/
def double_sha256 (sha : Sha) (serialized : List Nat) : Hash :=
  Hash.reverse (sha (sha serialized))

/-- `Block::id` (src/lib.rs): double SHA-256 of the serialized header. -/
def Block.id (sha : Sha) (b : Block) : Hash :=
  double_sha256 sha b.header.serializeLE

/-- The `adjust_count` closure of `Block::computed_merkle_root`
(src/lib.rs): 1 stays 1, odd counts above 1 round up to even. -/
def adjust_count (c : Nat) : Nat :=
  if c = 1 then 1 else if c % 2 = 1 then c + 1 else c

/-- One pairing pass of `Block::computed_merkle_root`: the
`for i in (0..layer_size).step_by(2)` loop, hashing each adjacent pair
as the double SHA-256 of the concatenation (no reversal). -/
def hashPairs (sha : Sha) : List Hash → List Hash
  | a :: b :: rest => sha (sha (a ++ b)) :: hashPairs sha rest
  | _ => []

/-- The `while layer_size > 1` loop of `Block::computed_merkle_root`
(src/lib.rs): when the layer is shorter than `layer_size` the last hash
is duplicated, then adjacent pairs are hashed and the size becomes
`adjust_count (layer_size / 2)`. -/
def merkleLoop (sha : Sha) (size : Nat) (hashes : List Hash) : List Hash :=
  if 1 < size then
    let hs := if hashes.length < size then hashes ++ [hashes.getLastD []]
      else hashes
    merkleLoop sha (adjust_count (size / 2)) (hashPairs sha hs)
  else hashes
termination_by size
decreasing_by
  simp only [adjust_count]
  split <;> rename_i h1
  · omega
  · split <;> omega

/-- `Block::computed_merkle_root` (src/lib.rs): empty transaction list
yields the zero hash; otherwise the leaf layer (reversed double SHA-256
of each witness-stripped transaction) is reduced by `merkleLoop` and the
final first element is byte-reversed. -/
def Block.computed_merkle_root (sha : Sha) (b : Block) : Hash :=
  if b.transactions = [] then Hash.zero
  else
    let leaves := b.transactions.map fun tx =>
      Hash.reverse (double_sha256 sha tx.strip_witness_data.serializeLE)
    Hash.reverse
      ((merkleLoop sha (adjust_count b.transactions.length) leaves).headD [])

/-- The derived `PartialOrd` of `struct Hash([u8; 32])` (src/lib.rs):
elementwise lexicographic comparison of the byte arrays. -/
def lexCompare : List Nat → List Nat → Ordering
  | [], [] => .eq
  | [], _ :: _ => .lt
  | _ :: _, [] => .gt
  | a :: as, b :: bs =>
    match compare a b with
    | .eq => lexCompare as bs
    | o => o

/-- Rust `>=` on two `Hash` values (total on equal-length arrays). -/
def hashGe (a b : Hash) : Bool := lexCompare a b ≠ .lt

/-! ## The validator (src/validator.rs) -/

/-- `MAX_SUPPORTED_BLOCK_VERSION` (src/validator.rs). -/
def MAX_SUPPORTED_BLOCK_VERSION : Nat := 4

/-- `TWO_HOURS_IN_SECONDS` (src/validator.rs). -/
def TWO_HOURS_IN_SECONDS : Nat := 7200

/-- `MAX_ACTIVE_HEIGHT` (src/validator.rs). -/
def MAX_ACTIVE_HEIGHT : Nat := 144

/-- `struct ActiveBlock` (src/validator.rs). -/
structure ActiveBlock where
  block : Block
  height : Nat
deriving DecidableEq, Repr, Inhabited

/-- `struct BlockValidator` (src/validator.rs).  The two `HashMap`s are
modelled as association lists where the first binding of a key wins. -/
structure BlockValidator where
  archived_blocks : List (Hash × Nat)
  active_blocks : List (Hash × ActiveBlock)
deriving DecidableEq, Repr, Inhabited

/-- `enum ValidationResult` (src/validator.rs); the
`BlockValidationError` payload of `Invalid` is a message string nobody
inspects and is dropped. -/
inductive ValidationResult where
  | Valid (h : Hash)
  | Invalid
  | Orphan (b : Block)
deriving DecidableEq, Repr

/-- `HashMap::get` on an association list. -/
def alookup {α : Type} (m : List (Hash × α)) (k : Hash) : Option α :=
  (m.find? fun p => decide (p.1 = k)).map Prod.snd

/-- `HashMap::remove` on an association list. -/
def aerase {α : Type} (m : List (Hash × α)) (k : Hash) : List (Hash × α) :=
  m.eraseP fun p => decide (p.1 = k)

/-- `HashMap::insert` on an association list: the new binding wins. -/
def ainsert {α : Type} (m : List (Hash × α)) (k : Hash) (v : α) :
    List (Hash × α) :=
  (k, v) :: aerase m k

/-- `BlockValidator::validate_block` (src/validator.rs).  `clock` is
`SystemTime::now().duration_since(UNIX_EPOCH)` in seconds, `none` when
the system clock read fails; `sha` is the SHA-256 primitive.  `none` is
`Err(BlockValidationError)`.  The parent lookup `unwrap` (unreachable
from `handle_block` for nonzero heights) is modelled as an error. -/
def validate_block (sha : Sha) (clock : Option Nat) (v : BlockValidator)
    (b : Block) (height : Nat) : Option Unit :=
  if MAX_SUPPORTED_BLOCK_VERSION < b.header.version then none
  else if b.computed_merkle_root sha ≠ b.header.merkle_root then none
  else match clock with
  | none => none
  | some now =>
    if now + TWO_HOURS_IN_SECONDS < b.header.time then none
    else match Hash.from_bits b.header.bits with
    | none => none
    | some target =>
      if hashGe (b.id sha) target then none
      else if height = 0 then some ()
      else match alookup v.active_blocks b.header.prev_block_hash with
      | none => none
      | some parent =>
        if b.header.time ≤ parent.block.header.time then none
        else if height % 2016 = 0 then some ()
        else if b.header.bits ≠ parent.block.header.bits then none
        else some ()

/-- Removing a present key strictly shortens an association list. -/
theorem aerase_length_lt {α : Type} {m : List (Hash × α)} {k : Hash} {v : α}
    (h : alookup m k = some v) : (aerase m k).length < m.length := by
  simp only [alookup, Option.map_eq_some'] at h
  obtain ⟨p, hp, -⟩ := h
  have hmem := List.mem_of_find?_eq_some hp
  have hpa := List.find?_some hp
  have := List.length_eraseP_add_one (p := fun q => decide (q.1 = k)) hmem hpa
  simp only [aerase]
  omega

/-- The first loop of `BlockValidator::archive_old_blocks`
(src/validator.rs): walk parent links, keeping the pair
`(active_root, iter_hash)`; each iteration sets `active_root` to the
current `iter_hash` and advances `iter_hash` to its parent.  The
`unwrap` on a missing active entry is modelled as `none`. -/
def walk_up (active : List (Hash × ActiveBlock)) :
    Nat → Hash × Hash → Option (Hash × Hash)
  | 0, p => some p
  | n + 1, (_, iter) =>
    match alookup active iter with
    | some ab => walk_up active n (iter, ab.block.header.prev_block_hash)
    | none => none

/-- The archiving loop of `archive_old_blocks`: starting from
`iter_hash`, remove each active node, record its height in the archive,
and follow its parent link until the walk falls off the active set.
The Rust `loop` terminates because every iteration removes one node
from the active map; the embedding carries that measure explicitly as
fuel, and `archive_old_blocks` passes `active.length + 1`, which always
suffices (`aerase_length_lt`). -/
def archive_chain : Nat → List (Hash × Nat) → List (Hash × ActiveBlock) →
    Hash → List (Hash × Nat) × List (Hash × ActiveBlock)
  | 0, archived, active, _ => (archived, active)
  | fuel + 1, archived, active, h =>
    match alookup active h with
    | some removed =>
      archive_chain fuel (ainsert archived h removed.height)
        (aerase active h) removed.block.header.prev_block_hash
    | none => (archived, active)

/-- `BlockValidator::get_active_root` (src/validator.rs): follow parent
links while the node is active; return the first hash that is not.  The
Rust loop diverges on a cyclic active map, so the embedding carries
fuel: with fuel above the number of active nodes, exhaustion (`none`)
happens exactly when the Rust walk revisits a node and spins forever. -/
def get_active_root (active : List (Hash × ActiveBlock)) :
    Nat → Hash → Option Hash
  | 0, _ => none
  | fuel + 1, h =>
    match alookup active h with
    | some ab => get_active_root active fuel ab.block.header.prev_block_hash
    | none => some h

/-- The pruning loop of `archive_old_blocks`: over the snapshot of
active hashes, a node whose active root is already retained is moved
from the active map into the retained map.  `none` models the `unwrap`
panics and a diverging root walk. -/
def prune_loop (active retained : List (Hash × ActiveBlock)) :
    List Hash → Option (List (Hash × ActiveBlock))
  | [] => some retained
  | h :: rest =>
    match get_active_root active (active.length + 1) h with
    | none => none
    | some root =>
      if (alookup retained root).isSome then
        match alookup active h with
        | some ab => prune_loop (aerase active h) (ainsert retained h ab) rest
        | none => none
      else prune_loop active retained rest

/-- `BlockValidator::archive_old_blocks` (src/validator.rs): walk
`MAX_ACTIVE_HEIGHT` parent links up from the new leaf, archive from
`iter_hash` upward, then rebuild the active map seeded with
`active_root` (removed from the active map first) and keep every node
whose active root is already retained. -/
def archive_old_blocks (v : BlockValidator) (leaf_hash : Hash) :
    Option BlockValidator := do
  let (active_root, iter) ←
    walk_up v.active_blocks MAX_ACTIVE_HEIGHT (leaf_hash, leaf_hash)
  let (archived', active') :=
    archive_chain (v.active_blocks.length + 1) v.archived_blocks
      v.active_blocks iter
  let rootBlock ← alookup active' active_root
  let seeded := aerase active' active_root
  let retained ←
    prune_loop seeded [(active_root, rootBlock)] (seeded.map Prod.fst)
  pure ⟨archived', retained⟩

/-- The tail of `BlockValidator::handle_block` (src/validator.rs) after
the height has been resolved: validate, insert into the active map, and
archive when the new height exceeds the archived count by
`MAX_ACTIVE_HEIGHT` (the Rust `height - len >= MAX_ACTIVE_HEIGHT` on
`usize`; `Nat` subtraction truncates where the Rust debug build would
panic on underflow). -/
def handle_block_at_height (sha : Sha) (clock : Option Nat)
    (v : BlockValidator) (b : Block) (height : Nat) :
    Option (BlockValidator × ValidationResult) :=
  match validate_block sha clock v b height with
  | none => some (v, .Invalid)
  | some _ =>
    let hash := b.id sha
    let v' : BlockValidator :=
      ⟨v.archived_blocks, ainsert v.active_blocks hash ⟨b, height⟩⟩
    if MAX_ACTIVE_HEIGHT ≤ height - v'.archived_blocks.length then
      (archive_old_blocks v' hash).map fun v'' => (v'', .Valid hash)
    else some (v', .Valid hash)

/-- `BlockValidator::handle_block` (src/validator.rs): reject blocks
whose parent is archived, resolve the height from the active parent or
the genesis sentinel, and otherwise hand the block back as an orphan. -/
def handle_block (sha : Sha) (clock : Option Nat) (v : BlockValidator)
    (b : Block) : Option (BlockValidator × ValidationResult) :=
  if (alookup v.archived_blocks b.header.prev_block_hash).isSome then
    some (v, .Invalid)
  else
    let is_genesis_block := b.header.prev_block_hash = Hash.zero
    match alookup v.active_blocks b.header.prev_block_hash with
    | some parent => handle_block_at_height sha clock v b (parent.height + 1)
    | none =>
      if is_genesis_block then handle_block_at_height sha clock v b 0
      else some (v, .Orphan b)

/-! ## Cursor facts about the deserializers

Every successful read advances the cursor by the number of bytes
consumed and never past the end of the buffer.  These facts justify the
termination of the parsing loops below. -/

theorem deserU8_cursor {bytes : List Nat} {ix : Nat} {r : Nat × Nat}
    (h : deserU8 bytes ix = some r) :
    r.2 = ix + 1 ∧ r.2 ≤ bytes.length := by
  rw [deserU8] at h
  split at h
  · cases h; exact ⟨rfl, by omega⟩
  · cases h

theorem deserU16_cursor {bytes : List Nat} {ix : Nat} {r : Nat × Nat}
    (h : deserU16 bytes ix = some r) :
    r.2 = ix + 2 ∧ r.2 ≤ bytes.length := by
  rw [deserU16] at h
  split at h
  · cases h; exact ⟨rfl, by omega⟩
  · cases h

theorem deserU32_cursor {bytes : List Nat} {ix : Nat} {r : Nat × Nat}
    (h : deserU32 bytes ix = some r) :
    r.2 = ix + 4 ∧ r.2 ≤ bytes.length := by
  rw [deserU32] at h
  split at h
  · cases h; exact ⟨rfl, by omega⟩
  · cases h

theorem deserU64_cursor {bytes : List Nat} {ix : Nat} {r : Nat × Nat}
    (h : deserU64 bytes ix = some r) :
    r.2 = ix + 8 ∧ r.2 ≤ bytes.length := by
  rw [deserU64] at h
  split at h
  · cases h; exact ⟨rfl, by omega⟩
  · cases h

theorem deserCompact_cursor {bytes : List Nat} {ix : Nat} {r : Nat × Nat}
    (h : deserCompact bytes ix = some r) :
    ix < r.2 ∧ r.2 ≤ bytes.length := by
  rw [deserCompact] at h
  rcases hb8 : deserU8 bytes ix with - | v1
  · rw [hb8] at h; cases h
  · rw [hb8] at h
    obtain ⟨h1a, h1b⟩ := deserU8_cursor hb8
    simp only [Option.bind_eq_bind', Option.some_bind'] at h
    split_ifs at h with h2 h3 h4 h5
    · cases h; omega
    · have := deserU16_cursor h
      omega
    · have := deserU32_cursor h
      omega
    · have := deserU64_cursor h
      omega

theorem deserHash_cursor {bytes : List Nat} {ix : Nat} {r : Hash × Nat}
    (h : deserHash bytes ix = some r) :
    r.2 = ix + 32 ∧ r.2 ≤ bytes.length := by
  rw [deserHash] at h
  split at h
  · cases h; exact ⟨rfl, by omega⟩
  · cases h

theorem read_bytes_cursor {bytes : List Nat} {ix count : Nat}
    {r : List Nat × Nat} (h : read_bytes bytes ix count = some r) :
    r.2 = ix + count ∧ r.2 ≤ bytes.length := by
  rw [read_bytes] at h
  split at h
  · cases h; exact ⟨rfl, by omega⟩
  · cases h

theorem read_bytearray_cursor {bytes : List Nat} {ix : Nat}
    {r : List Nat × Nat} (h : read_bytearray bytes ix = some r) :
    ix < r.2 ∧ r.2 ≤ bytes.length := by
  rw [read_bytearray] at h
  rcases hc : deserCompact bytes ix with - | c
  · rw [hc] at h; cases h
  · rw [hc] at h
    simp only [Option.bind_eq_bind', Option.some_bind'] at h
    have h1 := deserCompact_cursor hc
    have h2 := read_bytes_cursor h
    omega

theorem network_deserialize_cursor {bytes : List Nat} {ix : Nat}
    {r : Network × Nat} (h : Network.deserializeLE bytes ix = some r) :
    r.2 = ix + 4 ∧ r.2 ≤ bytes.length := by
  rw [Network.deserializeLE] at h
  rcases hm : deserU32 bytes ix with - | m
  · rw [hm] at h; cases h
  · rw [hm] at h
    simp only [Option.bind_eq_bind', Option.some_bind'] at h
    have h1 := deserU32_cursor hm
    split_ifs at h <;> cases h <;> simpa using h1

theorem deserFlags_cursor {bytes : List Nat} {ix : Nat} {r : Nat × Nat}
    (h : deserFlags bytes ix = some r) :
    r.2 = ix + 1 ∧ r.2 ≤ bytes.length := by
  rw [deserFlags] at h
  rcases hb : deserU8 bytes ix with - | v
  · rw [hb] at h; cases h
  · rw [hb] at h
    simp only [Option.bind_eq_bind', Option.some_bind'] at h
    have h1 := deserU8_cursor hb
    split_ifs at h
    cases h; simpa using h1

theorem readInputs_cursor {bytes : List Nat} :
    ∀ {n ix : Nat} {r : List TransactionInput × Nat},
    readInputs bytes n ix = some r → ix ≤ r.2 ∧ (r.2 ≤ bytes.length ∨ r.2 = ix)
  | 0, ix, r, h => by
    rw [readInputs] at h; cases h; exact ⟨le_refl _, Or.inr rfl⟩
  | n + 1, ix, r, h => by
    rw [readInputs] at h
    rcases h1 : deserHash bytes ix with - | p1
    · rw [h1] at h; cases h
    rw [h1] at h; simp only [Option.bind_eq_bind', Option.some_bind'] at h
    rcases h2 : deserU32 bytes p1.2 with - | p2
    · rw [h2] at h; cases h
    rw [h2] at h; simp only [Option.bind_eq_bind', Option.some_bind'] at h
    rcases h3 : read_bytearray bytes p2.2 with - | p3
    · rw [h3] at h; cases h
    rw [h3] at h; simp only [Option.bind_eq_bind', Option.some_bind'] at h
    rcases h4 : deserU32 bytes p3.2 with - | p4
    · rw [h4] at h; cases h
    rw [h4] at h; simp only [Option.bind_eq_bind', Option.some_bind'] at h
    rcases h5 : readInputs bytes n p4.2 with - | p5
    · rw [h5] at h; cases h
    rw [h5] at h; simp only [Option.bind_eq_bind', Option.some_bind'] at h
    cases h
    have c1 := deserHash_cursor h1
    have c2 := deserU32_cursor h2
    have c3 := read_bytearray_cursor h3
    have c4 := deserU32_cursor h4
    have c5 := readInputs_cursor h5
    simp only
    omega

theorem readOutputs_cursor {bytes : List Nat} :
    ∀ {n ix : Nat} {r : List TransactionOutput × Nat},
    readOutputs bytes n ix = some r → ix ≤ r.2 ∧ (r.2 ≤ bytes.length ∨ r.2 = ix)
  | 0, ix, r, h => by
    rw [readOutputs] at h; cases h; exact ⟨le_refl _, Or.inr rfl⟩
  | n + 1, ix, r, h => by
    rw [readOutputs] at h
    rcases h1 : deserU64 bytes ix with - | p1
    · rw [h1] at h; cases h
    rw [h1] at h; simp only [Option.bind_eq_bind', Option.some_bind'] at h
    rcases h2 : read_bytearray bytes p1.2 with - | p2
    · rw [h2] at h; cases h
    rw [h2] at h; simp only [Option.bind_eq_bind', Option.some_bind'] at h
    rcases h3 : readOutputs bytes n p2.2 with - | p3
    · rw [h3] at h; cases h
    rw [h3] at h; simp only [Option.bind_eq_bind', Option.some_bind'] at h
    cases h
    have c1 := deserU64_cursor h1
    have c2 := read_bytearray_cursor h2
    have c3 := readOutputs_cursor h3
    simp only
    omega

theorem readByteArrays_cursor {bytes : List Nat} :
    ∀ {n ix : Nat} {r : List (List Nat) × Nat},
    readByteArrays bytes n ix = some r → ix ≤ r.2 ∧ (r.2 ≤ bytes.length ∨ r.2 = ix)
  | 0, ix, r, h => by
    rw [readByteArrays] at h; cases h; exact ⟨le_refl _, Or.inr rfl⟩
  | n + 1, ix, r, h => by
    rw [readByteArrays] at h
    rcases h1 : read_bytearray bytes ix with - | p1
    · rw [h1] at h; cases h
    rw [h1] at h; simp only [Option.bind_eq_bind', Option.some_bind'] at h
    rcases h2 : readByteArrays bytes n p1.2 with - | p2
    · rw [h2] at h; cases h
    rw [h2] at h; simp only [Option.bind_eq_bind', Option.some_bind'] at h
    cases h
    have c1 := read_bytearray_cursor h1
    have c2 := readByteArrays_cursor h2
    simp only
    omega

theorem readWitnesses_cursor {bytes : List Nat} :
    ∀ {inps : List TransactionInput} {ix : Nat}
      {r : List TransactionInput × Nat},
    readWitnesses bytes inps ix = some r →
      ix ≤ r.2 ∧ (r.2 ≤ bytes.length ∨ r.2 = ix)
  | [], ix, r, h => by
    rw [readWitnesses] at h; cases h; exact ⟨le_refl _, Or.inr rfl⟩
  | inp :: rest, ix, r, h => by
    rw [readWitnesses] at h
    rcases h1 : deserCompact bytes ix with - | p1
    · rw [h1] at h; cases h
    rw [h1] at h; simp only [Option.bind_eq_bind', Option.some_bind'] at h
    rcases h2 : readByteArrays bytes p1.1 p1.2 with - | p2
    · rw [h2] at h; cases h
    rw [h2] at h; simp only [Option.bind_eq_bind', Option.some_bind'] at h
    rcases h3 : readWitnesses bytes rest p2.2 with - | p3
    · rw [h3] at h; cases h
    rw [h3] at h; simp only [Option.bind_eq_bind', Option.some_bind'] at h
    cases h
    have c1 := deserCompact_cursor h1
    have c2 := readByteArrays_cursor h2
    have c3 := readWitnesses_cursor h3
    simp only
    omega

theorem deserTxFlags_cursor {bytes : List Nat} {count ix : Nat}
    {r : Nat × Nat × Nat} (h : deserTxFlags bytes count ix = some r) :
    ix ≤ r.2.2 ∧ (r.2.2 ≤ bytes.length ∨ r.2.2 = ix) := by
  rw [deserTxFlags] at h
  split_ifs at h
  · rcases ha : deserFlags bytes ix with - | pa
    · rw [ha] at h; cases h
    rw [ha] at h; simp only [Option.bind_eq_bind', Option.some_bind'] at h
    rcases hb : deserCompact bytes pa.2 with - | pb
    · rw [hb] at h; cases h
    rw [hb] at h; simp only [Option.bind_eq_bind', Option.some_bind'] at h
    cases h
    have ca := deserFlags_cursor ha
    have cb := deserCompact_cursor hb
    simp only
    omega
  · cases h; exact ⟨le_refl _, Or.inr rfl⟩

theorem deserTxWitnessPhase_cursor {bytes : List Nat} {flags : Nat}
    {inputs : List TransactionInput} {ix : Nat}
    {r : List TransactionInput × Nat}
    (h : deserTxWitnessPhase bytes flags inputs ix = some r) :
    ix ≤ r.2 ∧ (r.2 ≤ bytes.length ∨ r.2 = ix) := by
  rw [deserTxWitnessPhase] at h
  split_ifs at h
  · exact readWitnesses_cursor h
  · cases h; exact ⟨le_refl _, Or.inr rfl⟩

theorem transaction_deserialize_cursor {bytes : List Nat} {ix : Nat}
    {r : Transaction × Nat} (h : Transaction.deserializeLE bytes ix = some r) :
    ix < r.2 ∧ r.2 ≤ bytes.length := by
  rw [Transaction.deserializeLE] at h
  rcases h1 : deserU32 bytes ix with - | p1
  · rw [h1] at h; cases h
  rw [h1] at h; simp only [Option.bind_eq_bind', Option.some_bind'] at h
  rcases h2 : deserCompact bytes p1.2 with - | p2
  · rw [h2] at h; cases h
  rw [h2] at h; simp only [Option.bind_eq_bind', Option.some_bind'] at h
  rcases hf : deserTxFlags bytes p2.1 p2.2 with - | pf
  · rw [hf] at h; cases h
  rw [hf] at h; simp only [Option.bind_eq_bind', Option.some_bind'] at h
  rcases h3 : readInputs bytes pf.2.1 pf.2.2 with - | p3
  · rw [h3] at h; cases h
  rw [h3] at h; simp only [Option.bind_eq_bind', Option.some_bind'] at h
  rcases h4 : deserCompact bytes p3.2 with - | p4
  · rw [h4] at h; cases h
  rw [h4] at h; simp only [Option.bind_eq_bind', Option.some_bind'] at h
  rcases h5 : readOutputs bytes p4.1 p4.2 with - | p5
  · rw [h5] at h; cases h
  rw [h5] at h; simp only [Option.bind_eq_bind', Option.some_bind'] at h
  rcases h6 : deserTxWitnessPhase bytes pf.1 p3.1 p5.2 with - | p6
  · rw [h6] at h; cases h
  rw [h6] at h; simp only [Option.bind_eq_bind', Option.some_bind'] at h
  rcases h7 : deserU32 bytes p6.2 with - | p7
  · rw [h7] at h; cases h
  rw [h7] at h; simp only [Option.bind_eq_bind', Option.some_bind'] at h
  cases h
  have c1 := deserU32_cursor h1
  have c2 := deserCompact_cursor h2
  have cf := deserTxFlags_cursor hf
  have c3 := readInputs_cursor h3
  have c4 := deserCompact_cursor h4
  have c5 := readOutputs_cursor h5
  have c6 := deserTxWitnessPhase_cursor h6
  have c7 := deserU32_cursor h7
  simp only
  omega

theorem readTransactions_cursor {bytes : List Nat} :
    ∀ {n ix : Nat} {r : List Transaction × Nat},
    readTransactions bytes n ix = some r →
      ix ≤ r.2 ∧ (r.2 ≤ bytes.length ∨ r.2 = ix)
  | 0, ix, r, h => by
    rw [readTransactions] at h; cases h; exact ⟨le_refl _, Or.inr rfl⟩
  | n + 1, ix, r, h => by
    rw [readTransactions] at h
    rcases h1 : Transaction.deserializeLE bytes ix with - | p1
    · rw [h1] at h; cases h
    rw [h1] at h; simp only [Option.bind_eq_bind', Option.some_bind'] at h
    rcases h2 : readTransactions bytes n p1.2 with - | p2
    · rw [h2] at h; cases h
    rw [h2] at h; simp only [Option.bind_eq_bind', Option.some_bind'] at h
    cases h
    have c1 := transaction_deserialize_cursor h1
    have c2 := readTransactions_cursor h2
    simp only
    omega

/-- A successfully parsed block consumes at least its 8 framing bytes
and never reads past the end of the buffer. -/
theorem block_deserialize_cursor {bytes : List Nat} {ix : Nat}
    {r : Block × Nat} (h : Block.deserializeLE bytes ix = some r) :
    ix < r.2 ∧ r.2 ≤ bytes.length := by
  rw [Block.deserializeLE] at h
  rcases h1 : Network.deserializeLE bytes ix with - | p1
  · rw [h1] at h; cases h
  rw [h1] at h; simp only [Option.bind_eq_bind', Option.some_bind'] at h
  rcases h2 : deserU32 bytes p1.2 with - | p2
  · rw [h2] at h; cases h
  rw [h2] at h; simp only [Option.bind_eq_bind', Option.some_bind'] at h
  rcases h3 : BlockHeader.deserializeLE bytes p2.2 with - | p3
  · rw [h3] at h; cases h
  rw [h3] at h; simp only [Option.bind_eq_bind', Option.some_bind'] at h
  rcases h4 : deserCompact bytes p3.2 with - | p4
  · rw [h4] at h; cases h
  rw [h4] at h; simp only [Option.bind_eq_bind', Option.some_bind'] at h
  rcases h5 : readTransactions bytes p4.1 p4.2 with - | p5
  · rw [h5] at h; cases h
  rw [h5] at h; simp only [Option.bind_eq_bind', Option.some_bind'] at h
  have c1 := network_deserialize_cursor h1
  have c2 := deserU32_cursor h2
  have c4 := deserCompact_cursor h4
  have c5 := readTransactions_cursor h5
  split at h
  · cases h
    rename_i heq
    simp only
    omega
  · cases h

/-! ## The pipeline builder (src/builder.rs)

The cross-thread side effects of `BlockChainBuilder::ingest` are
abstracted: `sha` is the SHA-256 primitive used for the raw-byte
fingerprint, and `sendOk n` tells whether the n-th
`validator_tx.send` of the call succeeds (it fails only when the
validator task has shut down).  The deduplicator `HashSet<Hash>` is an
insertion list. -/

/-- `ARBITRARY_ORPHANAGE_SIZE` (src/builder.rs). -/
def ARBITRARY_ORPHANAGE_SIZE : Nat := 128

/-- The `while ix < bytes.len()` loop of `BlockChainBuilder::ingest`
(src/builder.rs).  `last_good` is the cursor at the top of the
iteration; a parse error or a failed send returns it.  The Rust code
binds `bytes_hash` (the fingerprint, inlined here at both of its two
uses), inserts it into the deduplicator, and removes it again when the
send fails; on that path the fingerprint was fresh, so the deduplicator
is returned unchanged. -/
def ingest_loop (sha : Sha) (sendOk : Nat → Bool) (network : Network)
    (bytes : List Nat) (ix : Nat) (dedup : List Hash) (sends : Nat) :
    Nat × List Hash :=
  if ix < bytes.length then
    match hblk : Block.deserializeLE bytes ix with
    | none => (ix, dedup)
    | some (block, ix') =>
      if block.network ≠ network then
        ingest_loop sha sendOk network bytes ix' dedup sends
      else
        if sha ((bytes.drop ix).take (ix' - ix)) ∈ dedup then
          ingest_loop sha sendOk network bytes ix' dedup sends
        else if sendOk sends then
          ingest_loop sha sendOk network bytes ix'
            (sha ((bytes.drop ix).take (ix' - ix)) :: dedup) (sends + 1)
        else (ix, dedup)
  else (ix, dedup)
termination_by bytes.length - ix
decreasing_by
  all_goals have := block_deserialize_cursor hblk
  all_goals simp only at this
  all_goals omega

/-- `BlockChainBuilder::ingest` (src/builder.rs): run the loop from
cursor 0 with the builder's deduplicator, returning the stop index and
the updated deduplicator. -/
def BlockChainBuilder.ingest (sha : Sha) (sendOk : Nat → Bool)
    (network : Network) (dedup : List Hash) (bytes : List Nat) :
    Nat × List Hash :=
  ingest_loop sha sendOk network bytes 0 dedup 0

/-- How a run of the ingest loop ended. -/
inductive IngestOutcome where
  | done
  | parseErr (ix : Nat)
  | sendFail (ix : Nat)
deriving DecidableEq, Repr

/-- Mirror of `ingest_loop` that records how the loop ended instead of
the cursor: `done` when the whole buffer was consumed, `parseErr i`
when the block beginning at byte index `i` failed to parse, and
`sendFail i` when the send of the block beginning at `i` failed. -/
def ingestOutcome (sha : Sha) (sendOk : Nat → Bool) (network : Network)
    (bytes : List Nat) (ix : Nat) (dedup : List Hash) (sends : Nat) :
    IngestOutcome :=
  if ix < bytes.length then
    match hblk : Block.deserializeLE bytes ix with
    | none => .parseErr ix
    | some (block, ix') =>
      if block.network ≠ network then
        ingestOutcome sha sendOk network bytes ix' dedup sends
      else
        if sha ((bytes.drop ix).take (ix' - ix)) ∈ dedup then
          ingestOutcome sha sendOk network bytes ix' dedup sends
        else if sendOk sends then
          ingestOutcome sha sendOk network bytes ix'
            (sha ((bytes.drop ix).take (ix' - ix)) :: dedup) (sends + 1)
        else .sendFail ix
  else .done
termination_by bytes.length - ix
decreasing_by
  all_goals have := block_deserialize_cursor hblk
  all_goals simp only at this
  all_goals omega

/-- `struct Orphanage` (src/builder.rs). -/
structure Orphanage where
  size : Nat
  orphans : List Block
deriving DecidableEq, Repr, Inhabited

/-- `Orphanage::new` (src/builder.rs). -/
def Orphanage.new (size : Nat) : Orphanage := ⟨size, []⟩

/-- The eviction loop of `Orphanage::take_orphan`:
`while self.orphans.len() >= self.size { self.orphans.remove(0); }`.
(On an empty queue with size 0 the Rust `remove(0)` would panic; the
model exits.) -/
def evictLoop (size : Nat) : List Block → List Block
  | [] => []
  | b :: rest =>
    if size ≤ (b :: rest).length then evictLoop size rest else b :: rest

/-- `Orphanage::take_orphan` (src/builder.rs): evict from the front
while at capacity, then push the new block at the back. -/
def Orphanage.take_orphan (o : Orphanage) (b : Block) : Orphanage :=
  ⟨o.size, evictLoop o.size o.orphans ++ [b]⟩

/-- The scan loop of `Orphanage::find_children` (src/builder.rs): each
orphan whose `prev_block_hash` matches the parent is sent to the
validator and removed; a failed send (`sendOk = false`, the validator
has shut down) breaks the loop and retains remaining orphans. -/
def find_children_loop (parent_id : Hash) (sendOk : Bool)
    (orphans : List Block) (i : Nat) : List Block :=
  if h : i < orphans.length then
    if (orphans.get ⟨i, h⟩).header.prev_block_hash = parent_id then
      if sendOk then find_children_loop parent_id sendOk (orphans.eraseIdx i) i
      else orphans
    else find_children_loop parent_id sendOk orphans (i + 1)
  else orphans
termination_by orphans.length - i
decreasing_by
  · have := List.length_eraseIdx (l := orphans) (i := i)
    simp only [h, if_pos] at this
    omega
  · omega

/-- `Orphanage::find_children` (src/builder.rs). -/
def Orphanage.find_children (o : Orphanage) (parent_id : Hash)
    (sendOk : Bool) : Orphanage :=
  ⟨o.size, find_children_loop parent_id sendOk o.orphans 0⟩

/-- A message processed by the orphanage task's loop
(`spawn_orphanage` in src/builder.rs): `NewOrphan` or `NewParent`
(`Shutdown` ends the loop and is represented by the end of the
message list). -/
inductive OrphanageOp where
  | newOrphan (b : Block)
  | newParent (h : Hash) (sendOk : Bool)

/-- One dispatch step of the orphanage task's receive loop. -/
def Orphanage.applyOp (o : Orphanage) : OrphanageOp → Orphanage
  | .newOrphan b => o.take_orphan b
  | .newParent h sendOk => o.find_children h sendOk

/-- The orphanage task: start from `Orphanage::new(128)` and process a
message sequence. -/
def Orphanage.run (ops : List OrphanageOp) : Orphanage :=
  ops.foldl Orphanage.applyOp (Orphanage.new ARBITRARY_ORPHANAGE_SIZE)

/-! ## Scripts (src/lib.rs `Opcode`, src/script.rs) -/

/-- `enum Opcode` (src/lib.rs).  `PushNumber` carries an `i8`. -/
inductive Opcode where
  | PushArray (v : List Nat)
  | PushNumber (v : Int)
  | Reserved (v : Nat)
  | Nop (v : Nat)
  | Ver
  | If
  | NotIf
  | VerIf
  | VerNotIf
  | Else
  | EndIf
  | Verify
  | Return
  | ToAltStack
  | FromAltStack
  | Drop2
  | Dup2
  | Dup3
  | Over2
  | Rot2
  | Swap2
  | IfDup
  | Depth
  | Drop
  | Dup
  | Nip
  | Over
  | Pick
  | Roll
  | Rot
  | Swap
  | Tuck
  | Disabled (v : Nat)
  | Size
  | Equal
  | EqualVerify
  | Add1
  | Sub1
  | Negate
  | Abs
  | Not
  | NotEqual0
  | Add
  | Sub
  | BoolAnd
  | BoolOr
  | NumEqual
  | NumEqualVerify
  | NumNotEqual
  | LessThan
  | GreaterThan
  | LessThanOrEqual
  | GreaterThanOrEqual
  | Min
  | Max
  | Within
  | RIPEMD160
  | SHA1
  | SHA256
  | Hash160
  | Hash256
  | CodeSeparator
  | CheckSig
  | CheckSigVerify
  | CheckMultisig
  | CheckMultisigVerify
  | CheckLockTimeVerify
  | CheckSequenceVerify
  | Invalid (v : Nat)
deriving Repr

/-- `struct Script` (src/lib.rs). -/
structure Script where
  opcodes : List Opcode
deriving Repr

/-- The classification of byte `v` in `Opcode::deserialize_le`
(src/script.rs) for the byte codes that carry no further data
(everything except 0x00–0x4e). -/
def opcodeOf (v : Nat) : Opcode :=
  if v = 0x4f then .PushNumber ((v : Int) - 0x50)
  else if v = 0x50 then .Reserved v
  else if v ≤ 0x60 then .PushNumber ((v : Int) - 0x50)
  else if v = 0x61 then .Nop v
  else if v = 0x62 then .Reserved v
  else if v = 0x63 then .If
  else if v = 0x64 then .NotIf
  else if v ≤ 0x66 then .Disabled v
  else if v = 0x67 then .Else
  else if v = 0x68 then .EndIf
  else if v = 0x69 then .Verify
  else if v = 0x6a then .Return
  else if v = 0x6b then .ToAltStack
  else if v = 0x6c then .FromAltStack
  else if v = 0x6d then .Drop2
  else if v = 0x6e then .Dup2
  else if v = 0x6f then .Dup3
  else if v = 0x70 then .Over2
  else if v = 0x71 then .Rot2
  else if v = 0x72 then .Swap2
  else if v = 0x73 then .IfDup
  else if v = 0x74 then .Depth
  else if v = 0x75 then .Drop
  else if v = 0x76 then .Dup
  else if v = 0x77 then .Nip
  else if v = 0x78 then .Over
  else if v = 0x79 then .Pick
  else if v = 0x7a then .Roll
  else if v = 0x7b then .Rot
  else if v = 0x7c then .Swap
  else if v = 0x7d then .Tuck
  else if v ≤ 0x81 then .Disabled v
  else if v = 0x82 then .Size
  else if v ≤ 0x86 then .Disabled v
  else if v = 0x87 then .Equal
  else if v = 0x88 then .EqualVerify
  else if v ≤ 0x8a then .Reserved v
  else if v = 0x8b then .Add1
  else if v = 0x8c then .Sub1
  else if v ≤ 0x8e then .Disabled v
  else if v = 0x8f then .Negate
  else if v = 0x90 then .Abs
  else if v = 0x91 then .Not
  else if v = 0x92 then .NotEqual0
  else if v = 0x93 then .Add
  else if v = 0x94 then .Sub
  else if v ≤ 0x99 then .Disabled v
  else if v = 0x9a then .BoolAnd
  else if v = 0x9b then .BoolOr
  else if v = 0x9c then .NumEqual
  else if v = 0x9d then .NumEqualVerify
  else if v = 0x9e then .NumNotEqual
  else if v = 0x9f then .LessThan
  else if v = 0xa0 then .GreaterThan
  else if v = 0xa1 then .LessThanOrEqual
  else if v = 0xa2 then .GreaterThanOrEqual
  else if v = 0xa3 then .Min
  else if v = 0xa4 then .Max
  else if v = 0xa5 then .Within
  else if v = 0xa6 then .RIPEMD160
  else if v = 0xa7 then .SHA1
  else if v = 0xa8 then .SHA256
  else if v = 0xa9 then .Hash160
  else if v = 0xaa then .Hash256
  else if v = 0xab then .CodeSeparator
  else if v = 0xac then .CheckSig
  else if v = 0xad then .CheckSigVerify
  else if v = 0xae then .CheckMultisig
  else if v = 0xaf then .CheckMultisigVerify
  else if v = 0xb0 then .Nop v
  else if v = 0xb1 then .CheckLockTimeVerify
  else if v = 0xb2 then .CheckSequenceVerify
  else if v ≤ 0xb9 then .Nop v
  else .Invalid v

/-- `Opcode::deserialize_le` (src/script.rs): one byte; codes
0x00–0x4b push that many following bytes, 0x4c/0x4d/0x4e carry a
1/2/4-byte length prefix; all other codes are classified by
`opcodeOf`. -/
def Opcode.deserializeLE (bytes : List Nat) (ix : Nat) :
    Option (Opcode × Nat) := do
  let (v, ix1) ← deserU8 bytes ix
  if v ≤ 0x4b then do
    let (arr, ix2) ← read_bytes bytes ix1 v
    some (.PushArray arr, ix2)
  else if v = 0x4c then do
    let (count, ix2) ← deserU8 bytes ix1
    let (arr, ix3) ← read_bytes bytes ix2 count
    some (.PushArray arr, ix3)
  else if v = 0x4d then do
    let (count, ix2) ← deserU16 bytes ix1
    let (arr, ix3) ← read_bytes bytes ix2 count
    some (.PushArray arr, ix3)
  else if v = 0x4e then do
    let (count, ix2) ← deserU32 bytes ix1
    let (arr, ix3) ← read_bytes bytes ix2 count
    some (.PushArray arr, ix3)
  else some (opcodeOf v, ix1)

/-- A successfully parsed opcode advances the cursor. -/
theorem opcode_deserialize_cursor {bytes : List Nat} {ix : Nat}
    {r : Opcode × Nat} (h : Opcode.deserializeLE bytes ix = some r) :
    ix < r.2 := by
  rw [Opcode.deserializeLE] at h
  rcases hb : deserU8 bytes ix with - | v
  · rw [hb] at h; cases h
  rw [hb] at h; simp only [Option.bind_eq_bind', Option.some_bind'] at h
  have c0 := deserU8_cursor hb
  split_ifs at h
  · rcases h1 : read_bytes bytes v.2 v.1 with - | p1
    · rw [h1] at h; cases h
    rw [h1] at h; simp only [Option.bind_eq_bind', Option.some_bind'] at h
    cases h
    have c1 := read_bytes_cursor h1
    simp only
    omega
  · rcases h1 : deserU8 bytes v.2 with - | p1
    · rw [h1] at h; cases h
    rw [h1] at h; simp only [Option.bind_eq_bind', Option.some_bind'] at h
    rcases h2 : read_bytes bytes p1.2 p1.1 with - | p2
    · rw [h2] at h; cases h
    rw [h2] at h; simp only [Option.bind_eq_bind', Option.some_bind'] at h
    cases h
    have c1 := deserU8_cursor h1
    have c2 := read_bytes_cursor h2
    simp only
    omega
  · rcases h1 : deserU16 bytes v.2 with - | p1
    · rw [h1] at h; cases h
    rw [h1] at h; simp only [Option.bind_eq_bind', Option.some_bind'] at h
    rcases h2 : read_bytes bytes p1.2 p1.1 with - | p2
    · rw [h2] at h; cases h
    rw [h2] at h; simp only [Option.bind_eq_bind', Option.some_bind'] at h
    cases h
    have c1 := deserU16_cursor h1
    have c2 := read_bytes_cursor h2
    simp only
    omega
  · rcases h1 : deserU32 bytes v.2 with - | p1
    · rw [h1] at h; cases h
    rw [h1] at h; simp only [Option.bind_eq_bind', Option.some_bind'] at h
    rcases h2 : read_bytes bytes p1.2 p1.1 with - | p2
    · rw [h2] at h; cases h
    rw [h2] at h; simp only [Option.bind_eq_bind', Option.some_bind'] at h
    cases h
    have c1 := deserU32_cursor h1
    have c2 := read_bytes_cursor h2
    simp only
    omega
  · cases h
    simp only
    omega

/-- The loop of `parse_script` (src/script.rs). -/
def parse_script_loop (bytes : List Nat) (ix : Nat) : Option (List Opcode) :=
  if ix < bytes.length then do
    match hop : Opcode.deserializeLE bytes ix with
    | none => none
    | some (op, ix') => do
      let rest ← parse_script_loop bytes ix'
      some (op :: rest)
  else some []
termination_by bytes.length - ix
decreasing_by
  have := opcode_deserialize_cursor hop
  simp only at this
  omega

/-- `parse_script` (src/script.rs): structural parsing only; invalid
opcode bytes are represented as `Invalid`, not a parse error. -/
def parse_script (bytes : List Nat) : Option Script :=
  (parse_script_loop bytes 0).map Script.mk

/-- `Script::validate` (src/script.rs): fails on the first `Invalid`
opcode. -/
def Script.validate (s : Script) : Option Script :=
  if s.opcodes.any (fun op => match op with | .Invalid _ => true | _ => false)
  then none else some s

/-- `enum StackEntry` (src/script.rs). -/
inductive StackEntry where
  | Bytes (v : List Nat)
  | Number (v : Int)
deriving DecidableEq, Repr

/-- `StackEntry::as_bool` (src/script.rs). -/
def StackEntry.as_bool : StackEntry → Bool
  | .Bytes v => !v.isEmpty
  | .Number v => v ≠ 0

/-- `struct Executor` (src/script.rs).  The stacks are lists with the
top of the `Vec` at the head. -/
structure Executor where
  stack : List StackEntry
  alt_stack : List StackEntry
deriving DecidableEq, Repr

/-- One step of `Executor::execute` (src/script.rs): the effect of a
single opcode on the executor, `none` for `Err(BlockValidationError)`.
The stacks keep the `Vec` top at the list head, so `stack[len - k]` is
list index `k - 1` and `remove(len - k)` is `eraseIdx (k - 1)`.  The
`Invalid` arm is a Rust `panic!` (execution is only reached after
`Script::validate`); it is modelled as an error. -/
def execStep (e : Executor) : Opcode → Option Executor
  | .PushArray v => some { e with stack := .Bytes v :: e.stack }
  | .PushNumber v => some { e with stack := .Number v :: e.stack }
  | .Reserved _ => none
  | .Disabled _ => none
  | .Invalid _ => none
  | .Nop _ => some e
  | .Verify =>
    match e.stack with
    | [] => none
    | top :: rest => if top.as_bool then some { e with stack := rest } else none
  | .Return => none
  | .ToAltStack =>
    match e.stack with
    | [] => none
    | top :: rest =>
      some { e with stack := rest, alt_stack := top :: e.alt_stack }
  | .FromAltStack =>
    match e.alt_stack with
    | [] => none
    | top :: rest =>
      some { e with stack := top :: e.stack, alt_stack := rest }
  | .Drop2 =>
    match e.stack with
    | a :: b :: rest => some { e with stack := rest }
    | _ => none
  | .Dup2 =>
    match e.stack with
    | a :: b :: rest => some { e with stack := a :: b :: a :: b :: rest }
    | _ => none
  | .Dup3 =>
    match e.stack with
    | a :: b :: c :: rest =>
      some { e with stack := a :: b :: c :: a :: b :: c :: rest }
    | _ => none
  | .Over2 =>
    match e.stack with
    | a :: b :: c :: d :: rest =>
      some { e with stack := c :: d :: a :: b :: c :: d :: rest }
    | _ => none
  | .Rot2 =>
    match e.stack with
    | a :: b :: c :: d :: f :: g :: rest =>
      some { e with stack := f :: g :: a :: b :: c :: d :: rest }
    | _ => none
  | .Swap2 =>
    match e.stack with
    | a :: b :: c :: d :: rest =>
      some { e with stack := c :: d :: a :: b :: rest }
    | _ => none
  | .IfDup =>
    match e.stack with
    | [] => none
    | top :: rest =>
      if top.as_bool then some { e with stack := top :: top :: rest }
      else some e
  | .Depth =>
    if e.stack.length ≤ 2 ^ 63 - 1 then
      some { e with stack := .Number e.stack.length :: e.stack }
    else none
  | _ => some e

/-- The opcode loop of `Executor::execute` (src/script.rs): execute
opcodes in order, stopping at the first error. -/
def execOpcodes (e : Executor) : List Opcode → Option Executor
  | [] => some e
  | op :: rest => do
    let e' ← execStep e op
    execOpcodes e' rest

/-- `verify` (src/script.rs): parse both scripts, validate both, then
execute the unlock script followed by the lock script on a shared
executor and return `Ok(true)`.  `none` stands for `Err(ScriptError)`
(the parse/validation distinction of the error payload is dropped). -/
def verify (lock unlock : List Nat) : Option Bool := do
  let lockS ← parse_script lock
  let lockS ← lockS.validate
  let unlockS ← parse_script unlock
  let unlockS ← unlockS.validate
  let e0 : Executor := ⟨[], []⟩
  let e1 ← execOpcodes e0 unlockS.opcodes
  let _e2 ← execOpcodes e1 lockS.opcodes
  some true

/-! ## Claim theorems -/

/-- **C10.**  For every pair of lock and unlock byte arrays, `verify`
returns either an error (`none`, modelling `Err(ScriptError)`) or
`Ok(true)`; it never returns `Ok(false)` — after executing the unlock
and lock scripts without error it declares success without inspecting
the final stack top. -/
theorem verify_never_ok_false (lock unlock : List Nat) :
    verify lock unlock = none ∨ verify lock unlock = some true := by
  rw [verify]
  cases h1 : parse_script lock with
  | none => exact Or.inl rfl
  | some l1 =>
    simp only [Option.bind_eq_bind', Option.some_bind']
    cases h2 : l1.validate with
    | none => exact Or.inl rfl
    | some l2 =>
      simp only [Option.bind_eq_bind', Option.some_bind']
      cases h3 : parse_script unlock with
      | none => exact Or.inl rfl
      | some u1 =>
        simp only [Option.bind_eq_bind', Option.some_bind']
        cases h4 : u1.validate with
        | none => exact Or.inl rfl
        | some u2 =>
          simp only [Option.bind_eq_bind', Option.some_bind']
          cases h5 : execOpcodes ⟨[], []⟩ u2.opcodes with
          | none => exact Or.inl rfl
          | some e1 =>
            simp only [Option.bind_eq_bind', Option.some_bind']
            cases h6 : execOpcodes e1 l2.opcodes with
            | none => exact Or.inl rfl
            | some e2 => exact Or.inr rfl

/-- **C5, counterexample.**  The claim asserts that `e > 34` always
yields `None` and that `e == 34` with a zero top coefficient byte
always fits.  Both parts fail on the code: `from_bits 0xff000000` has
exponent 255 but returns the zero target (the zero-coefficient early
exit precedes the exponent check), and `from_bits 0x2200cdef` has
exponent 34 and top coefficient byte zero yet overflows (at `e == 34`
only the lowest coefficient byte is placed, so the second-lowest byte
also must be zero). -/
theorem from_bits_claim_counterexample :
    (0xff000000 / 2 ^ 24 > 34 ∧ Hash.from_bits 0xff000000 ≠ none) ∧
    (0x2200cdef / 2 ^ 24 = 34 ∧ 0x2200cdef % 2 ^ 24 / 2 ^ 16 = 0 ∧
      Hash.from_bits 0x2200cdef = none) := by
  refine ⟨⟨by norm_num, ?_⟩, by norm_num, by norm_num, ?_⟩ <;> decide

/-- **C5, amended.**  Writing `e` for the top byte of `bits` and `c`
for the low three bytes: if `c = 0` then `from_bits` returns the zero
target regardless of `e`; if `c ≠ 0` and `e > 34` then `from_bits`
returns `None`; if `e = 34` and `c ≥ 256` (one of the two upper
coefficient bytes nonzero) then `from_bits` returns `None`; and if
`e = 34` with `c < 256` then `from_bits` returns a target. -/
theorem from_bits_edge_cases (bits : Nat) :
    (bits % 2 ^ 24 = 0 → Hash.from_bits bits = some Hash.zero) ∧
    (bits % 2 ^ 24 ≠ 0 → bits / 2 ^ 24 > 34 → Hash.from_bits bits = none) ∧
    (bits / 2 ^ 24 = 34 → 2 ^ 8 ≤ bits % 2 ^ 24 →
      Hash.from_bits bits = none) ∧
    (bits / 2 ^ 24 = 34 → bits % 2 ^ 24 < 2 ^ 8 →
      (Hash.from_bits bits).isSome) := by
  refine ⟨fun h0 => ?_, fun h0 h34 => ?_, fun h34 hc => ?_, fun h34 hc => ?_⟩
  · simp only [Hash.from_bits, h0, if_pos]
    rfl
  · simp only [Hash.from_bits, if_neg h0, if_pos h34]
  · have h0 : ¬ bits % 2 ^ 24 = 0 := by omega
    have h34' : ¬ bits / 2 ^ 24 > 34 := by omega
    simp only [Hash.from_bits, if_neg h0, if_neg h34', h34]
    norm_num
    omega
  · by_cases h0 : bits % 2 ^ 24 = 0
    · simp only [Hash.from_bits, h0, if_pos, Option.isSome_some]
    · have h34' : ¬ bits / 2 ^ 24 > 34 := by omega
      simp only [Hash.from_bits, if_neg h0, if_neg h34', h34]
      norm_num
      omega

/-- Witness for `from_bits_edge_cases` at `bits = 0x2200cdef`
(overflow) and `bits = 0x220000ef` (fits). -/
theorem from_bits_edge_cases_witness :
    Hash.from_bits 0x2200cdef = none ∧
      (Hash.from_bits 0x220000ef).isSome := by
  constructor
  · exact (from_bits_edge_cases 0x2200cdef).2.2.1 (by norm_num) (by norm_num)
  · exact (from_bits_edge_cases 0x220000ef).2.2.2 (by norm_num) (by norm_num)

/-- **C3.**  `handle_block` dispatches as follows: a block whose
`prev_block_hash` is archived is `Invalid`; a block whose parent is
active proceeds at candidate height `parent.height + 1`; otherwise a
block with the zero previous hash proceeds at candidate height 0;
otherwise the block comes back as `Orphan`. -/
theorem handle_block_dispatch (sha : Sha) (clock : Option Nat)
    (v : BlockValidator) (b : Block) :
    ((alookup v.archived_blocks b.header.prev_block_hash).isSome →
      handle_block sha clock v b = some (v, .Invalid)) ∧
    (alookup v.archived_blocks b.header.prev_block_hash = none →
      ∀ parent,
        alookup v.active_blocks b.header.prev_block_hash = some parent →
        handle_block sha clock v b =
          handle_block_at_height sha clock v b (parent.height + 1)) ∧
    (alookup v.archived_blocks b.header.prev_block_hash = none →
      alookup v.active_blocks b.header.prev_block_hash = none →
      b.header.prev_block_hash = Hash.zero →
      handle_block sha clock v b = handle_block_at_height sha clock v b 0) ∧
    (alookup v.archived_blocks b.header.prev_block_hash = none →
      alookup v.active_blocks b.header.prev_block_hash = none →
      b.header.prev_block_hash ≠ Hash.zero →
      handle_block sha clock v b = some (v, .Orphan b)) := by
  refine ⟨fun h1 => ?_, fun h1 parent h2 => ?_, fun h1 h2 h3 => ?_,
    fun h1 h2 h3 => ?_⟩
  · rw [handle_block, if_pos h1]
  · rw [handle_block, if_neg (by simp [h1]), h2]
  · rw [handle_block, if_neg (by simp [h1]), h2]
    simp only [if_pos h3]
  · rw [handle_block, if_neg (by simp [h1]), h2]
    simp only [if_neg h3]

/-- Witness for `handle_block_dispatch`: on the empty validator state,
a block whose previous hash is neither active nor the genesis sentinel
comes back as an orphan. -/
theorem handle_block_dispatch_witness :
    handle_block (fun _ => List.replicate 32 0) (some 0) ⟨[], []⟩
      { network := .MainNet,
        header := ⟨1, List.replicate 32 1, List.replicate 32 0, 0, 0, 0⟩,
        transactions := [] } =
      some (⟨[], []⟩, .Orphan
        { network := .MainNet,
          header := ⟨1, List.replicate 32 1, List.replicate 32 0, 0, 0, 0⟩,
          transactions := [] }) := by
  exact (handle_block_dispatch (fun _ => List.replicate 32 0) (some 0)
    ⟨[], []⟩ _).2.2.2 (by rfl) (by rfl) (by decide)

/-- Case analysis for the post-height part of `handle_block`: it either
leaves the state unchanged with `Invalid`, or reports `Valid`. -/
theorem handle_block_at_height_cases {sha : Sha} {clock : Option Nat}
    {v : BlockValidator} {b : Block} {height : Nat}
    {v' : BlockValidator} {res : ValidationResult}
    (h : handle_block_at_height sha clock v b height = some (v', res)) :
    (v' = v ∧ res = .Invalid) ∨ ∃ hsh, res = .Valid hsh := by
  rw [handle_block_at_height] at h
  cases hv : validate_block sha clock v b height with
  | none => rw [hv] at h; cases h; exact Or.inl ⟨rfl, rfl⟩
  | some u =>
    rw [hv] at h
    simp only at h
    split_ifs at h
    · cases ha : archive_old_blocks
        ⟨v.archived_blocks, ainsert v.active_blocks (b.id sha) ⟨b, height⟩⟩
        (b.id sha) with
      | none => rw [ha] at h; cases h
      | some v'' =>
        rw [ha] at h
        simp only [Option.map_some'] at h
        cases h
        exact Or.inr ⟨_, rfl⟩
    · cases h
      exact Or.inr ⟨_, rfl⟩

/-- **C9.**  If `handle_block` returns `Invalid` or `Orphan`, the
validator state (both the archived and the active maps) is exactly
unchanged: all state mutation happens only on the `Valid` path. -/
theorem handle_block_failure_atomic (sha : Sha) (clock : Option Nat)
    (v : BlockValidator) (b : Block) (v' : BlockValidator)
    (res : ValidationResult)
    (h : handle_block sha clock v b = some (v', res))
    (hres : res = .Invalid ∨ ∃ b', res = .Orphan b') : v' = v := by
  rw [handle_block] at h
  split_ifs at h with h1
  · cases h; rfl
  · cases h2 : alookup v.active_blocks b.header.prev_block_hash with
    | some parent =>
      rw [h2] at h
      simp only at h
      rcases handle_block_at_height_cases h with ⟨hv, -⟩ | ⟨hsh, hval⟩
      · exact hv
      · subst hval
        rcases hres with h' | ⟨b', h'⟩ <;> cases h'
    | none =>
      rw [h2] at h
      simp only at h
      split_ifs at h
      · rcases handle_block_at_height_cases h with ⟨hv, -⟩ | ⟨hsh, hval⟩
        · exact hv
        · subst hval
          rcases hres with h' | ⟨b', h'⟩ <;> cases h'
      · cases h; rfl

/-- Witness for `handle_block_failure_atomic`: the orphan case of the
dispatch witness leaves the empty state unchanged. -/
theorem handle_block_failure_atomic_witness : (⟨[], []⟩ : BlockValidator) =
    (⟨[], []⟩ : BlockValidator) := by
  exact handle_block_failure_atomic (fun _ => List.replicate 32 0) (some 0)
    ⟨[], []⟩
    { network := .MainNet,
      header := ⟨1, List.replicate 32 1, List.replicate 32 0, 0, 0, 0⟩,
      transactions := [] }
    ⟨[], []⟩ (.Orphan
      { network := .MainNet,
        header := ⟨1, List.replicate 32 1, List.replicate 32 0, 0, 0, 0⟩,
        transactions := [] })
    (by decide) (Or.inr ⟨_, rfl⟩)

/-- The eviction loop leaves fewer than `size` blocks whenever `size`
is positive. -/
theorem evictLoop_length_lt {size : Nat} (hs : 0 < size) :
    ∀ l : List Block, (evictLoop size l).length < size := by
  intro l
  induction l with
  | nil => simpa [evictLoop] using hs
  | cons b rest ih =>
    rw [evictLoop]
    split_ifs with h
    · exact ih
    · simpa using Nat.lt_of_not_le h

/-- The eviction loop is the identity below capacity. -/
theorem evictLoop_eq_of_lt {size : Nat} :
    ∀ {l : List Block}, l.length < size → evictLoop size l = l := by
  intro l h
  cases l with
  | nil => rfl
  | cons b rest => rw [evictLoop, if_neg (by omega)]

/-- The scan loop of `find_children` never grows the orphan list. -/
theorem find_children_loop_length (parent_id : Hash) (sendOk : Bool) :
    ∀ (n : Nat) (orphans : List Block) (i : Nat), orphans.length - i ≤ n →
      (find_children_loop parent_id sendOk orphans i).length ≤
        orphans.length := by
  intro n
  induction n with
  | zero =>
    intro orphans i h
    rw [find_children_loop]
    have : ¬ i < orphans.length := by omega
    rw [dif_neg this]
  | succ n ih =>
    intro orphans i h
    rw [find_children_loop]
    split_ifs with h1 h2 h3
    · have hlen : (orphans.eraseIdx i).length = orphans.length - 1 := by
        have := List.length_eraseIdx (l := orphans) (i := i)
        simpa [h1] using this
      calc (find_children_loop parent_id sendOk (orphans.eraseIdx i) i).length
          ≤ (orphans.eraseIdx i).length := ih _ i (by omega)
        _ ≤ orphans.length := by omega
    · exact le_refl _
    · exact ih orphans (i + 1) (by omega)
    · exact le_refl _

/-- Both orphanage operations keep the queue at or below a positive
capacity, and `take_orphan` is always below-or-at capacity
afterwards. -/
theorem applyOp_length {o : Orphanage} (hs : 0 < o.size)
    (hb : o.orphans.length ≤ o.size) (op : OrphanageOp) :
    (o.applyOp op).orphans.length ≤ o.size ∧ (o.applyOp op).size = o.size := by
  cases op with
  | newOrphan b =>
    refine ⟨?_, rfl⟩
    simp only [Orphanage.applyOp, Orphanage.take_orphan]
    have := evictLoop_length_lt hs o.orphans
    simp only [List.length_append, List.length_singleton]
    omega
  | newParent h sendOk =>
    refine ⟨?_, rfl⟩
    simp only [Orphanage.applyOp, Orphanage.find_children]
    exact le_trans
      (find_children_loop_length h sendOk o.orphans.length o.orphans 0
        (by omega)) hb

/-- **C7.**  Starting from an empty orphanage of capacity 128, after
every sequence of `take_orphan` (`NewOrphan`) and `find_children`
(`NewParent`) operations the orphanage holds at most 128 blocks; and a
`take_orphan` arriving when the orphanage is at capacity evicts the
oldest stored block (FIFO order) before inserting the new one at the
back. -/
theorem orphanage_bounded_fifo :
    (∀ ops : List OrphanageOp,
      (Orphanage.run ops).orphans.length ≤ ARBITRARY_ORPHANAGE_SIZE) ∧
    (∀ (o : Orphanage) (b : Block), o.size = ARBITRARY_ORPHANAGE_SIZE →
      o.orphans.length = ARBITRARY_ORPHANAGE_SIZE →
      (o.take_orphan b).orphans = o.orphans.tail ++ [b]) := by
  constructor
  · have main : ∀ (ops : List OrphanageOp) (o : Orphanage),
        o.size = ARBITRARY_ORPHANAGE_SIZE →
        o.orphans.length ≤ ARBITRARY_ORPHANAGE_SIZE →
        (ops.foldl Orphanage.applyOp o).orphans.length ≤
          ARBITRARY_ORPHANAGE_SIZE := by
      intro ops
      induction ops with
      | nil => intro o _ hb; simpa using hb
      | cons op rest ih =>
        intro o hsz hb
        simp only [List.foldl_cons]
        have h1 := applyOp_length (o := o)
          (by rw [hsz]; exact (by norm_num [ARBITRARY_ORPHANAGE_SIZE]))
          (by rw [← hsz] at hb; exact hb) op
        exact ih _ (h1.2.trans hsz) (hsz ▸ h1.1)
    intro ops
    exact main ops (Orphanage.new ARBITRARY_ORPHANAGE_SIZE) rfl (by simp [Orphanage.new])
  · intro o b hsz hlen
    simp only [Orphanage.take_orphan]
    congr 1
    cases ho : o.orphans with
    | nil => rw [ho] at hlen; simp [ARBITRARY_ORPHANAGE_SIZE] at hlen
    | cons x rest =>
      rw [evictLoop, if_pos (by rw [← ho, hlen, hsz])]
      rw [ho] at hlen
      simp only [List.length_cons] at hlen
      rw [evictLoop_eq_of_lt (by omega)]
      rfl

/-- Witness for `orphanage_bounded_fifo`: a full orphanage of 128
copies of the default block evicts the front block on the next
`take_orphan`. -/
theorem orphanage_bounded_fifo_witness :
    (Orphanage.take_orphan
        ⟨128, List.replicate 128 default⟩ default).orphans =
      (List.replicate 128 (default : Block)).tail ++ [default] := by
  exact orphanage_bounded_fifo.2 ⟨128, List.replicate 128 default⟩ default
    rfl (by simp [ARBITRARY_ORPHANAGE_SIZE])

/-- A pairing pass halves the layer, rounding down. -/
theorem hashPairs_length (sha : Sha) :
    ∀ l : List Hash, (hashPairs sha l).length = l.length / 2
  | [] => by simp [hashPairs]
  | [a] => by simp [hashPairs]
  | a :: b :: rest => by
    rw [hashPairs]
    simp only [List.length_cons, hashPairs_length sha rest]
    omega

/-- The specification's padding step: duplicate the last element of a
layer of odd length. -/
def padEven (hs : List Hash) : List Hash :=
  if hs.length % 2 = 1 then hs ++ [hs.getLastD []] else hs

theorem padEven_length (hs : List Hash) :
    (padEven hs).length =
      if hs.length % 2 = 1 then hs.length + 1 else hs.length := by
  rw [padEven]
  split_ifs <;> simp

/-- The reference reduction of a leaf layer, as the specification
describes it: pair left-to-right, duplicating the last element whenever
a layer with more than one element has odd length, hashing each pair as
the double SHA-256 of the concatenation with no reversal between
rounds, until one hash remains. -/
def merkleReduce (sha : Sha) (hs : List Hash) : Hash :=
  match hs with
  | [] => []
  | [h] => h
  | h1 :: h2 :: rest =>
    merkleReduce sha (hashPairs sha (padEven (h1 :: h2 :: rest)))
termination_by hs.length
decreasing_by
  have ha := hashPairs_length sha (padEven (h1 :: h2 :: rest))
  have hb := padEven_length (h1 :: h2 :: rest)
  simp only [List.length_cons] at ha hb ⊢
  split_ifs at hb <;> omega

/-- The reference merkle algorithm, as the specification states it: an
empty transaction list yields the zero hash; a single transaction
yields the display-form double SHA-256 of the witness-stripped
transaction; otherwise the internal-order double SHA-256 leaves are
reduced by `merkleReduce` and the final remaining hash is
byte-reversed. -/
def referenceMerkleRoot (sha : Sha) (txs : List Transaction) : Hash :=
  match txs with
  | [] => Hash.zero
  | [tx] => double_sha256 sha tx.strip_witness_data.serializeLE
  | _ =>
    Hash.reverse (merkleReduce sha
      (txs.map fun tx => sha (sha tx.strip_witness_data.serializeLE)))

/-- The code's layer loop computes the reference reduction: on a
nonempty layer whose size argument is `adjust_count` of its length, the
loop ends with exactly the reduced hash. -/
theorem merkleLoop_eq_reduce (sha : Sha) :
    ∀ (n : Nat) (hs : List Hash), hs.length ≤ n → hs ≠ [] →
      merkleLoop sha (adjust_count hs.length) hs = [merkleReduce sha hs] := by
  intro n
  induction n with
  | zero =>
    intro hs h hne
    cases hs with
    | nil => exact absurd rfl hne
    | cons a l => simp at h
  | succ n ih =>
    intro hs hlen hne
    match hs with
    | [h] =>
      rw [merkleLoop, if_neg (by norm_num [adjust_count])]
      simp only [merkleReduce]
    | h1 :: h2 :: rest =>
      have hlen2 : (h1 :: h2 :: rest).length = rest.length + 2 := by simp
      have hsize : 1 < adjust_count (h1 :: h2 :: rest).length := by
        rw [adjust_count, hlen2]
        split_ifs <;> omega
      rw [merkleLoop, if_pos hsize]
      have hpad : (if (h1 :: h2 :: rest).length <
          adjust_count (h1 :: h2 :: rest).length then
            (h1 :: h2 :: rest) ++ [(h1 :: h2 :: rest).getLastD []]
          else h1 :: h2 :: rest) = padEven (h1 :: h2 :: rest) := by
        rw [padEven, adjust_count, hlen2]
        split_ifs <;> first | rfl | omega
      rw [hpad]
      have hplen : (padEven (h1 :: h2 :: rest)).length =
          adjust_count (h1 :: h2 :: rest).length := by
        rw [padEven_length, adjust_count, hlen2]
        split_ifs <;> omega
      have hhalf : (hashPairs sha (padEven (h1 :: h2 :: rest))).length =
          adjust_count (h1 :: h2 :: rest).length / 2 := by
        rw [hashPairs_length, hplen]
      have hne' : hashPairs sha (padEven (h1 :: h2 :: rest)) ≠ [] := by
        have : 0 < (hashPairs sha (padEven (h1 :: h2 :: rest))).length := by
          rw [hhalf]
          omega
        exact List.ne_nil_of_length_pos this
      have hle : (hashPairs sha (padEven (h1 :: h2 :: rest))).length ≤ n := by
        rw [hhalf, adjust_count, hlen2]
        simp only [hlen2] at hlen
        split_ifs <;> omega
      rw [← hhalf, ih _ hle hne']
      conv_rhs => simp only [merkleReduce]

/-- **C1.**  For every block (and every SHA-256 primitive),
`computed_merkle_root` equals the reference merkle algorithm: an empty
transaction list yields the zero hash; a single transaction yields the
display-form double SHA-256 of the witness-stripped transaction;
otherwise the internal-order double SHA-256 leaves are reduced by
pairing left-to-right with last-element duplication on odd layers,
hashing each pair as the double SHA-256 of the concatenation with no
reversal between rounds, and the final remaining hash is
byte-reversed. -/
theorem computed_merkle_root_eq_reference (sha : Sha) (b : Block) :
    b.computed_merkle_root sha = referenceMerkleRoot sha b.transactions := by
  have hleaf : ∀ tx : Transaction,
      Hash.reverse (double_sha256 sha tx.strip_witness_data.serializeLE) =
        sha (sha tx.strip_witness_data.serializeLE) := by
    intro tx
    simp [double_sha256, Hash.reverse]
  cases htx : b.transactions with
  | nil =>
    simp [Block.computed_merkle_root, htx, referenceMerkleRoot]
  | cons t1 rest =>
    cases rest with
    | nil =>
      simp only [Block.computed_merkle_root, htx]
      rw [if_neg (by simp)]
      simp only [List.map_cons, List.map_nil, List.length_cons,
        List.length_nil]
      rw [show adjust_count (0 + 1) = 1 by norm_num [adjust_count]]
      rw [merkleLoop, if_neg (by norm_num)]
      simp only [List.headD_cons]
      rw [hleaf t1]
      simp only [referenceMerkleRoot, double_sha256, Hash.reverse,
        List.reverse_reverse]
    | cons t2 rest2 =>
      simp only [Block.computed_merkle_root, htx]
      rw [if_neg (by simp)]
      have hmap : (t1 :: t2 :: rest2).map (fun tx =>
          Hash.reverse (double_sha256 sha tx.strip_witness_data.serializeLE)) =
          (t1 :: t2 :: rest2).map (fun tx =>
            sha (sha tx.strip_witness_data.serializeLE)) :=
        List.map_congr_left fun tx _ => hleaf tx
      have hlenmap : (t1 :: t2 :: rest2).length =
          ((t1 :: t2 :: rest2).map (fun tx =>
            sha (sha tx.strip_witness_data.serializeLE))).length := by simp
      rw [hmap, hlenmap, merkleLoop_eq_reduce sha _ _ (le_refl _) (by simp)]
      simp only [List.headD_cons]
      simp only [referenceMerkleRoot]

/-! ## The difficulty invariant (claim C4) -/

/-- The value of a hash read as an unsigned big-endian integer. -/
def beValue : Hash → Nat
  | [] => 0
  | b :: rest => b * 256 ^ rest.length + beValue rest

/-- A byte list is bounded by `256 ^ length`. -/
theorem beValue_lt {l : List Nat} (h : ∀ x ∈ l, x < 256) :
    beValue l < 256 ^ l.length := by
  induction l with
  | nil => simp [beValue]
  | cons b rest ih =>
    have hb : b < 256 := h b (List.mem_cons_self b rest)
    have hr := ih fun x hx => h x (List.mem_cons_of_mem b hx)
    simp only [beValue, List.length_cons, pow_succ]
    calc b * 256 ^ rest.length + beValue rest
        < b * 256 ^ rest.length + 256 ^ rest.length := by omega
      _ = (b + 1) * 256 ^ rest.length := by ring
      _ ≤ 256 * 256 ^ rest.length := by
          have hp : 0 < 256 ^ rest.length := Nat.pos_pow_of_pos _ (by norm_num)
          exact Nat.mul_le_mul_right _ (by omega)
      _ = 256 ^ rest.length * 256 := by ring

/-- On equal-length byte lists, the derived lexicographic order of the
Rust `Hash` type is the unsigned big-endian integer order. -/
theorem lexCompare_lt_iff_beValue :
    ∀ {a b : List Nat}, a.length = b.length → (∀ x ∈ a, x < 256) →
      (∀ x ∈ b, x < 256) → (lexCompare a b = .lt ↔ beValue a < beValue b)
  | [], [], _, _, _ => by simp [lexCompare, beValue]
  | [], c :: cs, hlen, _, _ => by simp at hlen
  | c :: cs, [], hlen, _, _ => by simp at hlen
  | x :: xs, y :: ys, hlen, hxa, hyb => by
    simp only [List.length_cons, Nat.succ.injEq] at hlen
    have hxsb := fun z hz => hxa z (List.mem_cons_of_mem x hz)
    have hysb := fun z hz => hyb z (List.mem_cons_of_mem y hz)
    have ihrec := lexCompare_lt_iff_beValue hlen hxsb hysb
    rw [lexCompare]
    simp only [beValue, hlen]
    rcases Nat.lt_trichotomy x y with hxy | hxy | hxy
    · rw [Nat.compare_eq_lt.2 hxy]
      simp only [true_iff]
      have h1 := beValue_lt hxsb
      have h2 : x + 1 ≤ y := hxy
      calc x * 256 ^ ys.length + beValue xs
          < x * 256 ^ ys.length + 256 ^ ys.length := by
            rw [← hlen]; omega
        _ = (x + 1) * 256 ^ ys.length := by ring
        _ ≤ y * 256 ^ ys.length := Nat.mul_le_mul_right _ h2
        _ ≤ y * 256 ^ ys.length + beValue ys := Nat.le_add_right _ _
    · subst hxy
      rw [Nat.compare_eq_eq.2 rfl]
      constructor
      · intro h; have := ihrec.1 h; omega
      · intro h; exact ihrec.2 (by omega)
    · rw [Nat.compare_eq_gt.2 hxy]
      constructor
      · intro h; cases h
      · intro h
        exfalso
        have h1 := beValue_lt hysb
        have h2 : y + 1 ≤ x := hxy
        have : y * 256 ^ ys.length + beValue ys < x * 256 ^ ys.length := by
          calc y * 256 ^ ys.length + beValue ys
              < y * 256 ^ ys.length + 256 ^ ys.length := by omega
            _ = (y + 1) * 256 ^ ys.length := by ring
            _ ≤ x * 256 ^ ys.length := Nat.mul_le_mul_right _ h2
        omega

/-- Setting entries preserves a byte bound. -/
theorem set_bytes_lt {l : List Nat} (hl : ∀ x ∈ l, x < 256) {i v : Nat}
    (hv : v < 256) : ∀ x ∈ l.set i v, x < 256 := by
  intro x hx
  rcases List.mem_or_eq_of_mem_set hx with hmem | rfl
  · exact hl x hmem
  · exact hv

/-- A target produced by `from_bits` is 32 bytes, each below 256. -/
theorem from_bits_shape {bits : Nat} {t : Hash}
    (h : Hash.from_bits bits = some t) :
    t.length = 32 ∧ ∀ x ∈ t, x < 256 := by
  have hrep : ∀ x ∈ List.replicate 32 (0 : Nat), x < 256 := by
    intro x hx
    have := List.eq_of_mem_replicate hx
    omega
  simp only [Hash.from_bits] at h
  split_ifs at h <;> cases h
  · exact ⟨by simp, hrep⟩
  · refine ⟨by simp, set_bytes_lt hrep (Nat.mod_lt _ (by norm_num))⟩
  · exact ⟨by simp, set_bytes_lt
      (set_bytes_lt hrep (Nat.mod_lt _ (by norm_num)))
      (Nat.mod_lt _ (by norm_num))⟩
  · exact ⟨by simp, set_bytes_lt (set_bytes_lt
      (set_bytes_lt hrep (Nat.mod_lt _ (by norm_num)))
      (Nat.mod_lt _ (by norm_num))) (Nat.mod_lt _ (by norm_num))⟩

/-- A successful validation implies `from_bits` succeeded and the
lexicographic target check passed. -/
theorem validate_block_target {sha : Sha} {clock : Option Nat}
    {v : BlockValidator} {b : Block} {height : Nat} {u : Unit}
    (h : validate_block sha clock v b height = some u) :
    ∃ t, Hash.from_bits b.header.bits = some t ∧
      hashGe (b.id sha) t = false := by
  rw [validate_block.eq_def] at h
  cases clock with
  | none => simp at h
  | some now =>
    cases hfb : Hash.from_bits b.header.bits with
    | none =>
      rw [hfb] at h
      simp at h
    | some target =>
      rw [hfb] at h
      split_ifs at h <;>
        first
          | cases h
          | exact ⟨target, rfl, by simp_all⟩

/-- A `Valid` result from `handle_block` passed `validate_block` at
some height. -/
theorem handle_block_valid_validated {sha : Sha} {clock : Option Nat}
    {v v' : BlockValidator} {b : Block} {hsh : Hash}
    (h : handle_block sha clock v b = some (v', .Valid hsh)) :
    ∃ height u, validate_block sha clock v b height = some u := by
  have at_height : ∀ height v'' ,
      handle_block_at_height sha clock v b height = some (v'', .Valid hsh) →
      ∃ u, validate_block sha clock v b height = some u := by
    intro height v'' hh
    rw [handle_block_at_height] at hh
    cases hv : validate_block sha clock v b height with
    | none => rw [hv] at hh; simp at hh
    | some u => exact ⟨u, rfl⟩
  rw [handle_block] at h
  split_ifs at h with h1
  · simp at h
  · cases h2 : alookup v.active_blocks b.header.prev_block_hash with
    | some parent =>
      rw [h2] at h
      simp only at h
      exact ⟨parent.height + 1, at_height _ _ h⟩
    | none =>
      rw [h2] at h
      simp only at h
      split_ifs at h
      · exact ⟨0, at_height _ _ h⟩
      · simp at h

/-- **C4.**  If `handle_block` returns `Valid` then `from_bits`
succeeded on the header's `bits` with some target `t`, and the block id
(the double SHA-256 of the serialized header), compared as an unsigned
big-endian integer, is strictly below `t`; conversely, whenever
`from_bits` yields a target that the block id equals or exceeds,
`validate_block` rejects the block at every height.  The hypothesis
`hsha` states that the SHA-256 primitive returns 32 bytes. -/
theorem valid_block_below_target (sha : Sha) (clock : Option Nat)
    (v : BlockValidator) (b : Block)
    (hsha : ∀ l, (sha l).length = 32 ∧ ∀ x ∈ sha l, x < 256) :
    (∀ v' hsh, handle_block sha clock v b = some (v', .Valid hsh) →
      ∃ t, Hash.from_bits b.header.bits = some t ∧
        beValue (b.id sha) < beValue t) ∧
    (∀ height t, Hash.from_bits b.header.bits = some t →
      beValue t ≤ beValue (b.id sha) →
      validate_block sha clock v b height = none) := by
  have hid : (b.id sha).length = 32 ∧ ∀ x ∈ b.id sha, x < 256 := by
    constructor
    · simp [Block.id, double_sha256, Hash.reverse, (hsha _).1]
    · intro x hx
      simp only [Block.id, double_sha256, Hash.reverse,
        List.mem_reverse] at hx
      exact (hsha _).2 x hx
  constructor
  · intro v' hsh h
    obtain ⟨height, u, hv⟩ := handle_block_valid_validated h
    obtain ⟨t, hfb, hge⟩ := validate_block_target hv
    obtain ⟨htlen, htb⟩ := from_bits_shape hfb
    refine ⟨t, hfb, ?_⟩
    have hlex : lexCompare (b.id sha) t = .lt := by
      rw [hashGe] at hge
      simpa using hge
    exact (lexCompare_lt_iff_beValue (by omega) hid.2 htb).1 hlex
  · intro height t hfb hle
    obtain ⟨htlen, htb⟩ := from_bits_shape hfb
    have hge : hashGe (b.id sha) t = true := by
      rw [hashGe]
      have : ¬ lexCompare (b.id sha) t = .lt := by
        rw [lexCompare_lt_iff_beValue (by omega) hid.2 htb]
        omega
      simpa using this
    rw [validate_block.eq_def]
    cases clock with
    | none => split_ifs <;> rfl
    | some now =>
      rw [hfb]
      split_ifs <;> first | rfl | simp [hge] | simp_all

/-- Witness for `valid_block_below_target`: with a constant 32-zero-byte
SHA primitive, a genesis block whose merkle root is the zero hash and
whose `bits` decode to the maximum-exponent target is accepted, and its
id is below the target. -/
theorem valid_block_below_target_witness :
    ∃ t, Hash.from_bits 0x1d00ffff = some t ∧
      beValue (Block.id (fun _ => List.replicate 32 0)
        { network := .MainNet,
          header := ⟨1, List.replicate 32 0, List.replicate 32 0, 0,
            0x1d00ffff, 0⟩,
          transactions := [] }) < beValue t := by
  have hsha : ∀ l : List Nat, ((fun _ => List.replicate 32 (0 : Nat)) l).length = 32 ∧
      ∀ x ∈ (fun _ => List.replicate 32 (0 : Nat)) l, x < 256 := by
    intro l
    refine ⟨by simp, ?_⟩
    intro x hx
    have := List.eq_of_mem_replicate hx
    omega
  exact (valid_block_below_target (fun _ => List.replicate 32 0) (some 0)
    ⟨[], []⟩
    { network := .MainNet,
      header := ⟨1, List.replicate 32 0, List.replicate 32 0, 0,
        0x1d00ffff, 0⟩,
      transactions := [] } hsha).1
    ⟨[], [(List.replicate 32 0,
      ⟨{ network := .MainNet,
         header := ⟨1, List.replicate 32 0, List.replicate 32 0, 0,
           0x1d00ffff, 0⟩,
         transactions := [] }, 0⟩)]⟩
    (List.replicate 32 0) (by decide)

/-! ## Ingestion return value (claim C8) -/

theorem ingest_loop_step_none {sha : Sha} {sendOk : Nat → Bool}
    {network : Network} {bytes : List Nat} {ix : Nat} {dedup : List Hash}
    {sends : Nat} (hix : ix < bytes.length)
    (hblk : Block.deserializeLE bytes ix = none) :
    ingest_loop sha sendOk network bytes ix dedup sends = (ix, dedup) := by
  rw [ingest_loop.eq_def, if_pos hix]
  split
  · rfl
  · rename_i block ix' heq
    rw [hblk] at heq
    cases heq

theorem ingest_loop_step_some {sha : Sha} {sendOk : Nat → Bool}
    {network : Network} {bytes : List Nat} {ix : Nat} {dedup : List Hash}
    {sends : Nat} {block : Block} {ix' : Nat} (hix : ix < bytes.length)
    (hblk : Block.deserializeLE bytes ix = some (block, ix')) :
    ingest_loop sha sendOk network bytes ix dedup sends =
      (if block.network ≠ network then
        ingest_loop sha sendOk network bytes ix' dedup sends
      else if sha ((bytes.drop ix).take (ix' - ix)) ∈ dedup then
        ingest_loop sha sendOk network bytes ix' dedup sends
      else if sendOk sends then
        ingest_loop sha sendOk network bytes ix'
          (sha ((bytes.drop ix).take (ix' - ix)) :: dedup) (sends + 1)
      else (ix, dedup)) := by
  rw [ingest_loop.eq_def, if_pos hix]
  split
  · rename_i heq
    rw [hblk] at heq
    cases heq
  · rename_i block' ix'' heq
    rw [hblk] at heq
    cases heq
    rfl

theorem ingestOutcome_step_none {sha : Sha} {sendOk : Nat → Bool}
    {network : Network} {bytes : List Nat} {ix : Nat} {dedup : List Hash}
    {sends : Nat} (hix : ix < bytes.length)
    (hblk : Block.deserializeLE bytes ix = none) :
    ingestOutcome sha sendOk network bytes ix dedup sends = .parseErr ix := by
  rw [ingestOutcome.eq_def, if_pos hix]
  split
  · rfl
  · rename_i block ix' heq
    rw [hblk] at heq
    cases heq

theorem ingestOutcome_step_some {sha : Sha} {sendOk : Nat → Bool}
    {network : Network} {bytes : List Nat} {ix : Nat} {dedup : List Hash}
    {sends : Nat} {block : Block} {ix' : Nat} (hix : ix < bytes.length)
    (hblk : Block.deserializeLE bytes ix = some (block, ix')) :
    ingestOutcome sha sendOk network bytes ix dedup sends =
      (if block.network ≠ network then
        ingestOutcome sha sendOk network bytes ix' dedup sends
      else if sha ((bytes.drop ix).take (ix' - ix)) ∈ dedup then
        ingestOutcome sha sendOk network bytes ix' dedup sends
      else if sendOk sends then
        ingestOutcome sha sendOk network bytes ix'
          (sha ((bytes.drop ix).take (ix' - ix)) :: dedup) (sends + 1)
      else .sendFail ix) := by
  rw [ingestOutcome.eq_def, if_pos hix]
  split
  · rename_i heq
    rw [hblk] at heq
    cases heq
  · rename_i block' ix'' heq
    rw [hblk] at heq
    cases heq
    rfl

/-- The ingest loop returns the buffer length exactly when its outcome
mirror reports completion, and returns the index of the offending block
on a parse error. -/
theorem ingest_loop_spec (sha : Sha) (sendOk : Nat → Bool)
    (network : Network) (bytes : List Nat) :
    ∀ (n ix : Nat) (dedup : List Hash) (sends : Nat),
      bytes.length - ix ≤ n → ix ≤ bytes.length →
      (((ingest_loop sha sendOk network bytes ix dedup sends).1 =
          bytes.length ↔
        ingestOutcome sha sendOk network bytes ix dedup sends = .done) ∧
       (∀ i,
        ingestOutcome sha sendOk network bytes ix dedup sends = .parseErr i →
        (ingest_loop sha sendOk network bytes ix dedup sends).1 = i)) := by
  intro n
  induction n with
  | zero =>
    intro ix dedup sends hn hle
    have hix : ¬ ix < bytes.length := by omega
    rw [ingest_loop.eq_def, ingestOutcome.eq_def, if_neg hix, if_neg hix]
    refine ⟨⟨fun _ => rfl, fun _ => ?_⟩, fun i hi => by cases hi⟩
    simp only
    omega
  | succ n ih =>
    intro ix dedup sends hn hle
    by_cases hix : ix < bytes.length
    · cases hblk : Block.deserializeLE bytes ix with
      | none =>
        rw [ingest_loop_step_none hix hblk, ingestOutcome_step_none hix hblk]
        refine ⟨⟨fun hh => ?_, fun hh => by cases hh⟩, fun i hi => ?_⟩
        · simp only at hh
          omega
        · cases hi
          rfl
      | some p =>
        obtain ⟨block, ix'⟩ := p
        have hcur := block_deserialize_cursor hblk
        simp only at hcur
        rw [ingest_loop_step_some hix hblk, ingestOutcome_step_some hix hblk]
        by_cases hnw : block.network ≠ network
        · rw [if_pos hnw, if_pos hnw]
          exact ih ix' dedup sends (by omega) (by omega)
        · rw [if_neg hnw, if_neg hnw]
          by_cases hmem : sha ((bytes.drop ix).take (ix' - ix)) ∈ dedup
          · rw [if_pos hmem, if_pos hmem]
            exact ih ix' dedup sends (by omega) (by omega)
          · rw [if_neg hmem, if_neg hmem]
            by_cases hsend : sendOk sends = true
            · rw [if_pos hsend, if_pos hsend]
              exact ih ix' _ _ (by omega) (by omega)
            · rw [if_neg hsend, if_neg hsend]
              refine ⟨⟨fun hh => ?_, fun hh => by cases hh⟩,
                fun i hi => by cases hi⟩
              simp only at hh
              omega
    · rw [ingest_loop.eq_def, ingestOutcome.eq_def, if_neg hix, if_neg hix]
      refine ⟨⟨fun _ => rfl, fun _ => ?_⟩, fun i hi => by cases hi⟩
      simp only
      omega

/-- **C8.**  `ingest` returns the input length exactly when every block
in the sequence parses successfully and no send to the validator fails
(wrong-network and duplicate blocks are skipped but still consumed);
when a block fails to parse, `ingest` returns the byte index at which
that block began (the `last_good` cursor position).  `ingestOutcome` is
the mirror of the loop recording which of these cases ended the run. -/
theorem ingest_returns_length_iff (sha : Sha) (sendOk : Nat → Bool)
    (network : Network) (dedup : List Hash) (bytes : List Nat) :
    ((BlockChainBuilder.ingest sha sendOk network dedup bytes).1 =
        bytes.length ↔
      ingestOutcome sha sendOk network bytes 0 dedup 0 = .done) ∧
    (∀ i, ingestOutcome sha sendOk network bytes 0 dedup 0 = .parseErr i →
      (BlockChainBuilder.ingest sha sendOk network dedup bytes).1 = i) :=
  ingest_loop_spec sha sendOk network bytes bytes.length 0 dedup 0
    (by omega) (by omega)

/-- Witness for `ingest_returns_length_iff`: a one-byte buffer cannot
hold a block, so ingestion stops at index 0. -/
theorem ingest_returns_length_iff_witness :
    (BlockChainBuilder.ingest (fun _ => []) (fun _ => true) .MainNet []
      [0]).1 = 0 :=
  (ingest_returns_length_iff (fun _ => []) (fun _ => true) .MainNet []
    [0]).2 0 (ingestOutcome_step_none (by decide) (by decide))

/-! ## Codec round trip (claim C2) -/

/-- A 91-byte buffer that parses as a whole block but whose transaction
count is encoded non-minimally (`fd 00 00` instead of `00`): RegTest
magic, size 83, an all-zero 80-byte header, and the 3-byte count. -/
def nonMinimalBlockBytes : List Nat :=
  [0xfa, 0xbf, 0xb5, 0xda, 83, 0, 0, 0] ++ List.replicate 80 0 ++
    [0xfd, 0, 0]

/-- **C2, counterexample.**  `deserialize_le` succeeds on
`nonMinimalBlockBytes` from cursor 0 and consumes all 91 bytes, but
serializing the parsed block emits the minimal one-byte count encoding,
yielding an 89-byte buffer different from the input. -/
theorem roundtrip_claim_counterexample :
    Block.deserializeLE nonMinimalBlockBytes 0 =
      some (⟨.RegTest, ⟨0, Hash.zero, Hash.zero, 0, 0, 0⟩, []⟩,
        nonMinimalBlockBytes.length) ∧
    Block.serializeLE ⟨.RegTest, ⟨0, Hash.zero, Hash.zero, 0, 0, 0⟩, []⟩ ≠
      nonMinimalBlockBytes := by
  decide

/-- Well-formed transaction input: a 32-byte txid and counts inside the
machine-integer ranges the wire format carries. -/
def wfInput (i : TransactionInput) : Prop :=
  i.txid.length = 32 ∧ i.vout < 2 ^ 32 ∧
  i.unlock_script.length < 2 ^ 64 ∧ i.sequence < 2 ^ 32 ∧
  i.witness_stuff.length < 2 ^ 64 ∧ ∀ w ∈ i.witness_stuff, w.length < 2 ^ 64

/-- Well-formed transaction output. -/
def wfOutput (o : TransactionOutput) : Prop :=
  o.value < 2 ^ 64 ∧ o.lock_script.length < 2 ^ 64

/-- Well-formed transaction: field bounds, a valid flags byte, at least
one input when no witness marker is emitted, and witness stacks only
when the `WITNESS` flag is set. -/
def wfTx (tx : Transaction) : Prop :=
  tx.version < 2 ^ 32 ∧ tx.locktime < 2 ^ 32 ∧ tx.flags < 2 ∧
  tx.inputs.length < 2 ^ 64 ∧ tx.outputs.length < 2 ^ 64 ∧
  (tx.flags = 0 → tx.inputs ≠ []) ∧
  (tx.flags = 0 → ∀ i ∈ tx.inputs, i.witness_stuff = []) ∧
  (∀ i ∈ tx.inputs, wfInput i) ∧ (∀ o ∈ tx.outputs, wfOutput o)

/-- Well-formed block: header field bounds, 32-byte hashes, well-formed
transactions, and a body that fits the `u32` size field. -/
def wfBlock (b : Block) : Prop :=
  b.header.version < 2 ^ 32 ∧ b.header.time < 2 ^ 32 ∧
  b.header.bits < 2 ^ 32 ∧ b.header.nonce < 2 ^ 32 ∧
  b.header.prev_block_hash.length = 32 ∧ b.header.merkle_root.length = 32 ∧
  b.transactions.length < 2 ^ 64 ∧ (∀ tx ∈ b.transactions, wfTx tx) ∧
  (blockBody b).length < 2 ^ 32

/-- Reading at an offset into the middle segment of a concatenation. -/
theorem getD_concat (pre mid rest : List Nat) (k : Nat)
    (hk : k < mid.length) :
    (pre ++ mid ++ rest).getD (pre.length + k) 0 = mid.getD k 0 := by
  rw [List.append_assoc,
    List.getD_append_right pre (mid ++ rest) 0 _ (by omega)]
  have h : pre.length + k - pre.length = k := by omega
  rw [h, List.getD_append mid rest 0 k hk]

theorem deserU8_at (pre : List Nat) (b : Nat) (rest : List Nat)
    {bytes : List Nat} (hb : bytes = pre ++ b :: rest) :
    deserU8 bytes pre.length = some (b, pre.length + 1) := by
  subst hb
  rw [deserU8, if_pos (by simp)]
  have h0 := getD_concat pre [b] rest 0 (by simp)
  simp only [Nat.add_zero] at h0
  rw [show pre ++ b :: rest = pre ++ [b] ++ rest by simp, h0]
  rfl

theorem deserU16_rt (pre rest : List Nat) (v : Nat) {bytes : List Nat}
    (hb : bytes = pre ++ serU16 v ++ rest) (hv : v < 2 ^ 16) :
    deserU16 bytes pre.length = some (v, pre.length + 2) := by
  subst hb
  rw [deserU16, if_pos (by simp [serU16])]
  have h0 := getD_concat pre (serU16 v) rest 0 (by simp [serU16])
  have h1 := getD_concat pre (serU16 v) rest 1 (by simp [serU16])
  simp only [Nat.add_zero] at h0
  rw [h0, h1]
  simp only [serU16, List.getD_cons_zero, List.getD_cons_succ,
    Option.some.injEq, Prod.mk.injEq]
  first | omega | exact ⟨by omega, trivial⟩

theorem deserU32_rt (pre rest : List Nat) (v : Nat) {bytes : List Nat}
    (hb : bytes = pre ++ serU32 v ++ rest) (hv : v < 2 ^ 32) :
    deserU32 bytes pre.length = some (v, pre.length + 4) := by
  subst hb
  rw [deserU32, if_pos (by simp [serU32])]
  have h0 := getD_concat pre (serU32 v) rest 0 (by simp [serU32])
  have h1 := getD_concat pre (serU32 v) rest 1 (by simp [serU32])
  have h2 := getD_concat pre (serU32 v) rest 2 (by simp [serU32])
  have h3 := getD_concat pre (serU32 v) rest 3 (by simp [serU32])
  simp only [Nat.add_zero] at h0
  rw [h0, h1, h2, h3]
  simp only [serU32, List.getD_cons_zero, List.getD_cons_succ,
    Option.some.injEq, Prod.mk.injEq]
  first | omega | exact ⟨by omega, trivial⟩

theorem deserU64_rt (pre rest : List Nat) (v : Nat) {bytes : List Nat}
    (hb : bytes = pre ++ serU64 v ++ rest) (hv : v < 2 ^ 64) :
    deserU64 bytes pre.length = some (v, pre.length + 8) := by
  subst hb
  rw [deserU64, if_pos (by simp [serU64])]
  have h0 := getD_concat pre (serU64 v) rest 0 (by simp [serU64])
  have h1 := getD_concat pre (serU64 v) rest 1 (by simp [serU64])
  have h2 := getD_concat pre (serU64 v) rest 2 (by simp [serU64])
  have h3 := getD_concat pre (serU64 v) rest 3 (by simp [serU64])
  have h4 := getD_concat pre (serU64 v) rest 4 (by simp [serU64])
  have h5 := getD_concat pre (serU64 v) rest 5 (by simp [serU64])
  have h6 := getD_concat pre (serU64 v) rest 6 (by simp [serU64])
  have h7 := getD_concat pre (serU64 v) rest 7 (by simp [serU64])
  simp only [Nat.add_zero] at h0
  rw [h0, h1, h2, h3, h4, h5, h6, h7]
  simp only [serU64, List.getD_cons_zero, List.getD_cons_succ,
    Option.some.injEq, Prod.mk.injEq]
  first | omega | exact ⟨by omega, trivial⟩

theorem deserCompact_rt (pre rest : List Nat) (v : Nat) {bytes : List Nat}
    (hb : bytes = pre ++ serCompact v ++ rest) (hv : v < 2 ^ 64) :
    deserCompact bytes pre.length =
      some (v, pre.length + (serCompact v).length) := by
  rw [deserCompact]
  by_cases h1 : v ≤ 0xfc
  · have hser : serCompact v = [v] := by
      rw [serCompact, if_pos h1, Nat.mod_eq_of_lt (by omega)]
    rw [hser] at hb
    rw [deserU8_at pre v rest (by simpa using hb)]
    simp only [Option.bind_eq_bind', Option.some_bind']
    rw [if_pos h1, hser]
    simp
  · by_cases h2 : v ≤ 0xffff
    · have hser : serCompact v = 0xfd :: serU16 v := by
        rw [serCompact, if_neg h1, if_pos h2, Nat.mod_eq_of_lt (by omega)]
      rw [hser] at hb
      rw [deserU8_at pre 0xfd (serU16 v ++ rest) (by rw [hb]; simp)]
      simp only [Option.bind_eq_bind', Option.some_bind']
      norm_num
      have hl : pre.length + 1 = (pre ++ [0xfd]).length := by simp
      rw [hl, deserU16_rt (pre ++ [0xfd]) rest v (by rw [hb]; simp)
        (by omega)]
      simp [hser, serU16]
    · by_cases h3 : v ≤ 0xffffffff
      · have hser : serCompact v = 0xfe :: serU32 v := by
          rw [serCompact, if_neg h1, if_neg h2, if_pos h3,
            Nat.mod_eq_of_lt (by omega)]
        rw [hser] at hb
        rw [deserU8_at pre 0xfe (serU32 v ++ rest) (by rw [hb]; simp)]
        simp only [Option.bind_eq_bind', Option.some_bind']
        norm_num
        have hl : pre.length + 1 = (pre ++ [0xfe]).length := by simp
        rw [hl, deserU32_rt (pre ++ [0xfe]) rest v (by rw [hb]; simp)
          (by omega)]
        simp [hser, serU32]
      · have hser : serCompact v = 0xff :: serU64 v := by
          rw [serCompact, if_neg h1, if_neg h2, if_neg h3,
            Nat.mod_eq_of_lt (by omega)]
        rw [hser] at hb
        rw [deserU8_at pre 0xff (serU64 v ++ rest) (by rw [hb]; simp)]
        simp only [Option.bind_eq_bind', Option.some_bind']
        norm_num
        have hl : pre.length + 1 = (pre ++ [0xff]).length := by simp
        rw [hl, deserU64_rt (pre ++ [0xff]) rest v (by rw [hb]; simp)
          (by omega)]
        simp [hser, serU64]

theorem deserHash_rt (pre rest : List Nat) (h : Hash) {bytes : List Nat}
    (hb : bytes = pre ++ serHash h ++ rest) (hlen : h.length = 32) :
    deserHash bytes pre.length = some (h, pre.length + 32) := by
  subst hb
  rw [deserHash, if_pos (by simp [serHash, Hash.reverse, hlen])]
  rw [List.append_assoc, List.drop_left,
    List.take_left' (by simp [serHash, Hash.reverse, hlen])]
  simp [serHash, Hash.reverse]

theorem read_bytes_rt (pre s rest : List Nat) {bytes : List Nat}
    (hb : bytes = pre ++ s ++ rest) :
    read_bytes bytes pre.length s.length =
      some (s, pre.length + s.length) := by
  subst hb
  rw [read_bytes, if_pos (by simp)]
  rw [List.append_assoc, List.drop_left, List.take_left]

theorem read_bytearray_rt (pre s rest : List Nat) {bytes : List Nat}
    (hb : bytes = pre ++ serCompact s.length ++ s ++ rest)
    (hs : s.length < 2 ^ 64) :
    read_bytearray bytes pre.length =
      some (s, pre.length + (serCompact s.length).length + s.length) := by
  rw [read_bytearray]
  rw [deserCompact_rt pre (s ++ rest) s.length (by rw [hb]; simp) hs]
  simp only [Option.bind_eq_bind', Option.some_bind']
  have hl : pre.length + (serCompact s.length).length =
      (pre ++ serCompact s.length).length := by simp
  rw [hl, read_bytes_rt (pre ++ serCompact s.length) s rest (by rw [hb])]

theorem deserFlags_rt (pre rest : List Nat) (f : Nat) {bytes : List Nat}
    (hb : bytes = pre ++ f :: rest) (hf : f < 2) :
    deserFlags bytes pre.length = some (f, pre.length + 1) := by
  rw [deserFlags, deserU8_at pre f rest hb]
  simp only [Option.bind_eq_bind', Option.some_bind']
  rw [if_pos (by omega)]

theorem networkSer_rt (pre rest : List Nat) (nw : Network)
    {bytes : List Nat} (hb : bytes = pre ++ nw.serializeLE ++ rest) :
    Network.deserializeLE bytes pre.length = some (nw, pre.length + 4) := by
  rw [Network.deserializeLE]
  cases nw with
  | MainNet =>
    have hser : Network.serializeLE .MainNet = serU32 0xd9b4bef9 := by decide
    rw [hser] at hb
    rw [deserU32_rt pre rest 0xd9b4bef9 hb (by norm_num)]
    rw [Option.bind_eq_bind', Option.some_bind']
    norm_num
  | TestNet3 =>
    have hser : Network.serializeLE .TestNet3 = serU32 0x0709110b := by
      decide
    rw [hser] at hb
    rw [deserU32_rt pre rest 0x0709110b hb (by norm_num)]
    rw [Option.bind_eq_bind', Option.some_bind']
    norm_num
  | RegTest =>
    have hser : Network.serializeLE .RegTest = serU32 0xdab5bffa := by decide
    rw [hser] at hb
    rw [deserU32_rt pre rest 0xdab5bffa hb (by norm_num)]
    rw [Option.bind_eq_bind', Option.some_bind']
    norm_num

theorem readOutputs_rt (outputs : List TransactionOutput) :
    ∀ (pre rest : List Nat) {bytes : List Nat},
      bytes = pre ++ outputs.flatMap serOutputCore ++ rest →
      (∀ o ∈ outputs, wfOutput o) →
      readOutputs bytes outputs.length pre.length =
        some (outputs, pre.length + (outputs.flatMap serOutputCore).length) := by
  induction outputs with
  | nil =>
    intro pre rest bytes hb _
    simp [readOutputs]
  | cons o os ih =>
    intro pre rest bytes hb hwf
    obtain ⟨hval, hls⟩ := hwf o (List.mem_cons_self o os)
    have hwf2 := fun x hx => hwf x (List.mem_cons_of_mem o hx)
    rw [show (o :: os).length = os.length + 1 from rfl, readOutputs]
    rw [deserU64_rt pre
      (serCompact o.lock_script.length ++ o.lock_script ++
        (os.flatMap serOutputCore ++ rest)) o.value
      (by rw [hb]; simp [serOutputCore, List.append_assoc]) hval]
    simp only [Option.bind_eq_bind', Option.some_bind']
    have e1 : pre.length + 8 = (pre ++ serU64 o.value).length := by
      simp [serU64]
    rw [e1]
    rw [read_bytearray_rt (pre ++ serU64 o.value) o.lock_script
      (os.flatMap serOutputCore ++ rest)
      (by rw [hb]; simp [serOutputCore, List.append_assoc]) hls]
    simp only [Option.bind_eq_bind', Option.some_bind']
    have e2 : (pre ++ serU64 o.value).length +
        (serCompact o.lock_script.length).length + o.lock_script.length =
        (pre ++ serU64 o.value ++ serCompact o.lock_script.length ++
          o.lock_script).length := by
      simp
      omega
    rw [e2]
    rw [ih (pre ++ serU64 o.value ++ serCompact o.lock_script.length ++
        o.lock_script) rest
      (by rw [hb]; simp [serOutputCore, List.append_assoc]) hwf2]
    simp only [Option.bind_eq_bind', Option.some_bind', Option.some.injEq,
      Prod.mk.injEq]
    refine ⟨by first | rfl | trivial, ?_⟩
    simp [serOutputCore, serU64]
    omega

theorem readInputs_rt (inputs : List TransactionInput) :
    ∀ (pre rest : List Nat) {bytes : List Nat},
      bytes = pre ++ inputs.flatMap serInputCore ++ rest →
      (∀ i ∈ inputs, wfInput i) →
      readInputs bytes inputs.length pre.length =
        some (inputs.map fun i => { i with witness_stuff := [] },
          pre.length + (inputs.flatMap serInputCore).length) := by
  induction inputs with
  | nil =>
    intro pre rest bytes hb _
    simp [readInputs]
  | cons i is ih =>
    intro pre rest bytes hb hwf
    obtain ⟨h32, hvout, hus, hseq, -, -⟩ := hwf i (List.mem_cons_self i is)
    have hwf2 := fun x hx => hwf x (List.mem_cons_of_mem i hx)
    rw [show (i :: is).length = is.length + 1 from rfl, readInputs]
    rw [deserHash_rt pre
      (serU32 i.vout ++ serCompact i.unlock_script.length ++
        i.unlock_script ++ serU32 i.sequence ++
        (is.flatMap serInputCore ++ rest)) i.txid
      (by rw [hb]; simp [serInputCore, List.append_assoc]) h32]
    simp only [Option.bind_eq_bind', Option.some_bind']
    have e1 : pre.length + 32 = (pre ++ serHash i.txid).length := by
      simp [serHash, Hash.reverse, h32]
    rw [e1]
    rw [deserU32_rt (pre ++ serHash i.txid)
      (serCompact i.unlock_script.length ++ i.unlock_script ++
        serU32 i.sequence ++ (is.flatMap serInputCore ++ rest)) i.vout
      (by rw [hb]; simp [serInputCore, List.append_assoc]) hvout]
    simp only [Option.bind_eq_bind', Option.some_bind']
    have e2 : (pre ++ serHash i.txid).length + 4 =
        (pre ++ serHash i.txid ++ serU32 i.vout).length := by
      simp [serU32]; try omega
    rw [e2]
    rw [read_bytearray_rt (pre ++ serHash i.txid ++ serU32 i.vout)
      i.unlock_script
      (serU32 i.sequence ++ (is.flatMap serInputCore ++ rest))
      (by rw [hb]; simp [serInputCore, List.append_assoc]) hus]
    simp only [Option.bind_eq_bind', Option.some_bind']
    have e3 : (pre ++ serHash i.txid ++ serU32 i.vout).length +
        (serCompact i.unlock_script.length).length +
        i.unlock_script.length =
        (pre ++ serHash i.txid ++ serU32 i.vout ++
          serCompact i.unlock_script.length ++ i.unlock_script).length := by
      simp
      omega
    rw [e3]
    rw [deserU32_rt (pre ++ serHash i.txid ++ serU32 i.vout ++
        serCompact i.unlock_script.length ++ i.unlock_script)
      (is.flatMap serInputCore ++ rest) i.sequence
      (by rw [hb]; simp [serInputCore, List.append_assoc]) hseq]
    simp only [Option.bind_eq_bind', Option.some_bind']
    have e4 : (pre ++ serHash i.txid ++ serU32 i.vout ++
        serCompact i.unlock_script.length ++ i.unlock_script).length + 4 =
        (pre ++ serHash i.txid ++ serU32 i.vout ++
          serCompact i.unlock_script.length ++ i.unlock_script ++
          serU32 i.sequence).length := by simp [serU32]; try omega
    rw [e4]
    rw [ih (pre ++ serHash i.txid ++ serU32 i.vout ++
        serCompact i.unlock_script.length ++ i.unlock_script ++
        serU32 i.sequence) rest
      (by rw [hb]; simp [serInputCore, List.append_assoc]) hwf2]
    simp only [Option.bind_eq_bind', Option.some_bind', Option.some.injEq,
      Prod.mk.injEq, List.map_cons]
    refine ⟨by first | rfl | trivial, ?_⟩
    simp [serInputCore, serHash, Hash.reverse, serU32, h32]
    omega

theorem readByteArrays_rt (ws : List (List Nat)) :
    ∀ (pre rest : List Nat) {bytes : List Nat},
      bytes = pre ++ ws.flatMap (fun w => serCompact w.length ++ w) ++ rest →
      (∀ w ∈ ws, w.length < 2 ^ 64) →
      readByteArrays bytes ws.length pre.length =
        some (ws, pre.length +
          (ws.flatMap (fun w => serCompact w.length ++ w)).length) := by
  induction ws with
  | nil =>
    intro pre rest bytes hb _
    simp [readByteArrays]
  | cons w ws ih =>
    intro pre rest bytes hb hwf
    have hw := hwf w (List.mem_cons_self w ws)
    have hwf2 := fun x hx => hwf x (List.mem_cons_of_mem w hx)
    rw [show (w :: ws).length = ws.length + 1 from rfl, readByteArrays]
    rw [read_bytearray_rt pre w
      (ws.flatMap (fun x => serCompact x.length ++ x) ++ rest)
      (by rw [hb]; simp [List.append_assoc]) hw]
    simp only [Option.bind_eq_bind', Option.some_bind']
    have e1 : pre.length + (serCompact w.length).length + w.length =
        (pre ++ serCompact w.length ++ w).length := by
      simp
      omega
    rw [e1]
    rw [ih (pre ++ serCompact w.length ++ w) rest
      (by rw [hb]; simp [List.append_assoc]) hwf2]
    simp only [Option.bind_eq_bind', Option.some_bind', Option.some.injEq,
      Prod.mk.injEq]
    refine ⟨by first | rfl | trivial, ?_⟩
    simp
    omega

theorem readWitnesses_rt (inputs : List TransactionInput) :
    ∀ (pre rest : List Nat) {bytes : List Nat},
      bytes = pre ++ inputs.flatMap serWitness ++ rest →
      (∀ i ∈ inputs, wfInput i) →
      readWitnesses bytes
        (inputs.map fun i => { i with witness_stuff := [] }) pre.length =
        some (inputs, pre.length + (inputs.flatMap serWitness).length) := by
  induction inputs with
  | nil =>
    intro pre rest bytes hb _
    simp [readWitnesses]
  | cons i is ih =>
    intro pre rest bytes hb hwf
    obtain ⟨-, -, -, -, hwlen, hwitems⟩ := hwf i (List.mem_cons_self i is)
    have hwf2 := fun x hx => hwf x (List.mem_cons_of_mem i hx)
    rw [List.map_cons, readWitnesses]
    rw [deserCompact_rt pre
      (i.witness_stuff.flatMap (fun w => serCompact w.length ++ w) ++
        (is.flatMap serWitness ++ rest)) i.witness_stuff.length
      (by rw [hb]; simp [serWitness, List.append_assoc]) hwlen]
    simp only [Option.bind_eq_bind', Option.some_bind']
    have e1 : pre.length + (serCompact i.witness_stuff.length).length =
        (pre ++ serCompact i.witness_stuff.length).length := by simp
    rw [e1]
    rw [readByteArrays_rt i.witness_stuff
      (pre ++ serCompact i.witness_stuff.length)
      (is.flatMap serWitness ++ rest)
      (by rw [hb]; simp [serWitness, List.append_assoc]) hwitems]
    simp only [Option.bind_eq_bind', Option.some_bind']
    have e2 : (pre ++ serCompact i.witness_stuff.length).length +
        (i.witness_stuff.flatMap (fun w => serCompact w.length ++ w)).length =
        (pre ++ serCompact i.witness_stuff.length ++
          i.witness_stuff.flatMap (fun w => serCompact w.length ++ w)).length
        := by simp; try omega
    rw [e2]
    rw [ih (pre ++ serCompact i.witness_stuff.length ++
        i.witness_stuff.flatMap (fun w => serCompact w.length ++ w)) rest
      (by rw [hb]; simp [serWitness, List.append_assoc]) hwf2]
    simp only [Option.bind_eq_bind', Option.some_bind', Option.some.injEq,
      Prod.mk.injEq]
    refine ⟨by first | rfl | trivial, ?_⟩
    simp [serWitness]
    omega

/-- Clearing the witness stacks of inputs that already have empty
witness stacks is the identity. -/
theorem map_clear_witness (inputs : List TransactionInput)
    (h : ∀ i ∈ inputs, i.witness_stuff = []) :
    (inputs.map fun i => { i with witness_stuff := [] }) = inputs := by
  induction inputs with
  | nil => rfl
  | cons i is ih =>
    simp only [List.map_cons]
    rw [ih (fun x hx => h x (List.mem_cons_of_mem i hx))]
    have hi := h i (List.mem_cons_self i is)
    cases i
    simp_all

/-- `Transaction::deserialize_le` inverts `serialize_le` on a
well-formed transaction embedded in a larger buffer. -/
theorem transaction_rt (tx : Transaction) (pre rest : List Nat)
    {bytes : List Nat} (hb : bytes = pre ++ tx.serializeLE ++ rest)
    (hwf : wfTx tx) :
    Transaction.deserializeLE bytes pre.length =
      some (tx, pre.length + tx.serializeLE.length) := by
  obtain ⟨ver, flags, ins, outs, lt⟩ := tx
  obtain ⟨hver, hlt, hfl, hilen, holen, hne, hclear, hinwf, houtwf⟩ := hwf
  subst hb
  interval_cases flags
  · -- no witness marker
    have hser : Transaction.serializeLE ⟨ver, 0, ins, outs, lt⟩ =
        serU32 ver ++ serCompact ins.length ++ ins.flatMap serInputCore ++
          serCompact outs.length ++ outs.flatMap serOutputCore ++
          serU32 lt := by
      simp [Transaction.serializeLE]
    have hne' : ins.length ≠ 0 := fun h0 =>
      hne rfl (List.eq_nil_of_length_eq_zero h0)
    rw [Transaction.deserializeLE]
    rw [deserU32_rt pre
      (serCompact ins.length ++ ins.flatMap serInputCore ++
        serCompact outs.length ++ outs.flatMap serOutputCore ++
        serU32 lt ++ rest) ver
      (by rw [hser]; simp [List.append_assoc]) hver]
    simp only [Option.bind_eq_bind', Option.some_bind']
    have e1 : pre.length + 4 = (pre ++ serU32 ver).length := by simp [serU32]
    rw [e1]
    rw [deserCompact_rt (pre ++ serU32 ver)
      (ins.flatMap serInputCore ++ serCompact outs.length ++
        outs.flatMap serOutputCore ++ serU32 lt ++ rest) ins.length
      (by rw [hser]; simp [List.append_assoc]) hilen]
    simp only [Option.bind_eq_bind', Option.some_bind']
    rw [deserTxFlags, if_neg hne']
    simp only [Option.bind_eq_bind', Option.some_bind']
    have e2 : (pre ++ serU32 ver).length + (serCompact ins.length).length =
        (pre ++ serU32 ver ++ serCompact ins.length).length := by
      simp; try omega
    rw [e2]
    rw [readInputs_rt ins (pre ++ serU32 ver ++ serCompact ins.length)
      (serCompact outs.length ++ outs.flatMap serOutputCore ++
        serU32 lt ++ rest)
      (by rw [hser]; simp [List.append_assoc]) hinwf]
    rw [map_clear_witness ins (hclear rfl)]
    simp only [Option.bind_eq_bind', Option.some_bind']
    have e3 : (pre ++ serU32 ver ++ serCompact ins.length).length +
        (ins.flatMap serInputCore).length =
        (pre ++ serU32 ver ++ serCompact ins.length ++
          ins.flatMap serInputCore).length := by simp; try omega
    rw [e3]
    rw [deserCompact_rt
      (pre ++ serU32 ver ++ serCompact ins.length ++
        ins.flatMap serInputCore)
      (outs.flatMap serOutputCore ++ serU32 lt ++ rest) outs.length
      (by rw [hser]; simp [List.append_assoc]) holen]
    simp only [Option.bind_eq_bind', Option.some_bind']
    have e4 : (pre ++ serU32 ver ++ serCompact ins.length ++
        ins.flatMap serInputCore).length +
        (serCompact outs.length).length =
        (pre ++ serU32 ver ++ serCompact ins.length ++
          ins.flatMap serInputCore ++ serCompact outs.length).length := by
      simp; try omega
    rw [e4]
    rw [readOutputs_rt outs
      (pre ++ serU32 ver ++ serCompact ins.length ++
        ins.flatMap serInputCore ++ serCompact outs.length)
      (serU32 lt ++ rest)
      (by rw [hser]; simp [List.append_assoc]) houtwf]
    simp only [Option.bind_eq_bind', Option.some_bind']
    rw [deserTxWitnessPhase, if_neg (by norm_num)]
    simp only [Option.bind_eq_bind', Option.some_bind']
    have e5 : (pre ++ serU32 ver ++ serCompact ins.length ++
        ins.flatMap serInputCore ++ serCompact outs.length).length +
        (outs.flatMap serOutputCore).length =
        (pre ++ serU32 ver ++ serCompact ins.length ++
          ins.flatMap serInputCore ++ serCompact outs.length ++
          outs.flatMap serOutputCore).length := by simp; try omega
    rw [e5]
    rw [deserU32_rt
      (pre ++ serU32 ver ++ serCompact ins.length ++
        ins.flatMap serInputCore ++ serCompact outs.length ++
        outs.flatMap serOutputCore) rest lt
      (by rw [hser]; simp [List.append_assoc]) hlt]
    simp only [Option.bind_eq_bind', Option.some_bind', Option.some.injEq,
      Prod.mk.injEq]
    refine ⟨by first | rfl | trivial, ?_⟩
    rw [hser]
    simp [serU32]
    omega
  · -- witness marker and witness phase
    have hser : Transaction.serializeLE ⟨ver, 1, ins, outs, lt⟩ =
        serU32 ver ++ [0, 1] ++ serCompact ins.length ++
          ins.flatMap serInputCore ++ serCompact outs.length ++
          outs.flatMap serOutputCore ++ ins.flatMap serWitness ++
          serU32 lt := by
      simp [Transaction.serializeLE]
    have hc0 : serCompact 0 = [0] := rfl
    rw [Transaction.deserializeLE]
    rw [deserU32_rt pre
      ([0, 1] ++ serCompact ins.length ++ ins.flatMap serInputCore ++
        serCompact outs.length ++ outs.flatMap serOutputCore ++
        ins.flatMap serWitness ++ serU32 lt ++ rest) ver
      (by rw [hser]; simp [List.append_assoc]) hver]
    simp only [Option.bind_eq_bind', Option.some_bind']
    have e1 : pre.length + 4 = (pre ++ serU32 ver).length := by simp [serU32]
    rw [e1]
    rw [deserCompact_rt (pre ++ serU32 ver)
      ([1] ++ serCompact ins.length ++ ins.flatMap serInputCore ++
        serCompact outs.length ++ outs.flatMap serOutputCore ++
        ins.flatMap serWitness ++ serU32 lt ++ rest) 0
      (by rw [hser]; simp [hc0, List.append_assoc]) (by norm_num)]
    simp only [Option.bind_eq_bind', Option.some_bind']
    rw [deserTxFlags, if_pos rfl]
    have e2 : (pre ++ serU32 ver).length + (serCompact 0).length =
        (pre ++ serU32 ver ++ [0]).length := by simp [hc0]; try omega
    rw [e2]
    rw [deserFlags_rt (pre ++ serU32 ver ++ [0])
      (serCompact ins.length ++ ins.flatMap serInputCore ++
        serCompact outs.length ++ outs.flatMap serOutputCore ++
        ins.flatMap serWitness ++ serU32 lt ++ rest) 1
      (by rw [hser]; simp [List.append_assoc]) (by norm_num)]
    simp only [Option.bind_eq_bind', Option.some_bind']
    have e3 : (pre ++ serU32 ver ++ [0]).length + 1 =
        (pre ++ serU32 ver ++ [0, 1]).length := by simp; try omega
    rw [e3]
    rw [deserCompact_rt (pre ++ serU32 ver ++ [0, 1])
      (ins.flatMap serInputCore ++ serCompact outs.length ++
        outs.flatMap serOutputCore ++ ins.flatMap serWitness ++
        serU32 lt ++ rest) ins.length
      (by rw [hser]; simp [List.append_assoc]) hilen]
    simp only [Option.bind_eq_bind', Option.some_bind']
    have e4 : (pre ++ serU32 ver ++ [0, 1]).length +
        (serCompact ins.length).length =
        (pre ++ serU32 ver ++ [0, 1] ++ serCompact ins.length).length := by
      simp; try omega
    rw [e4]
    rw [readInputs_rt ins
      (pre ++ serU32 ver ++ [0, 1] ++ serCompact ins.length)
      (serCompact outs.length ++ outs.flatMap serOutputCore ++
        ins.flatMap serWitness ++ serU32 lt ++ rest)
      (by rw [hser]; simp [List.append_assoc]) hinwf]
    simp only [Option.bind_eq_bind', Option.some_bind']
    have e5 : (pre ++ serU32 ver ++ [0, 1] ++
        serCompact ins.length).length +
        (ins.flatMap serInputCore).length =
        (pre ++ serU32 ver ++ [0, 1] ++ serCompact ins.length ++
          ins.flatMap serInputCore).length := by simp; try omega
    rw [e5]
    rw [deserCompact_rt
      (pre ++ serU32 ver ++ [0, 1] ++ serCompact ins.length ++
        ins.flatMap serInputCore)
      (outs.flatMap serOutputCore ++ ins.flatMap serWitness ++
        serU32 lt ++ rest) outs.length
      (by rw [hser]; simp [List.append_assoc]) holen]
    simp only [Option.bind_eq_bind', Option.some_bind']
    have e6 : (pre ++ serU32 ver ++ [0, 1] ++ serCompact ins.length ++
        ins.flatMap serInputCore).length +
        (serCompact outs.length).length =
        (pre ++ serU32 ver ++ [0, 1] ++ serCompact ins.length ++
          ins.flatMap serInputCore ++ serCompact outs.length).length := by
      simp; try omega
    rw [e6]
    rw [readOutputs_rt outs
      (pre ++ serU32 ver ++ [0, 1] ++ serCompact ins.length ++
        ins.flatMap serInputCore ++ serCompact outs.length)
      (ins.flatMap serWitness ++ serU32 lt ++ rest)
      (by rw [hser]; simp [List.append_assoc]) houtwf]
    simp only [Option.bind_eq_bind', Option.some_bind']
    rw [deserTxWitnessPhase, if_pos (by norm_num)]
    have e7 : (pre ++ serU32 ver ++ [0, 1] ++ serCompact ins.length ++
        ins.flatMap serInputCore ++ serCompact outs.length).length +
        (outs.flatMap serOutputCore).length =
        (pre ++ serU32 ver ++ [0, 1] ++ serCompact ins.length ++
          ins.flatMap serInputCore ++ serCompact outs.length ++
          outs.flatMap serOutputCore).length := by simp; try omega
    rw [e7]
    rw [readWitnesses_rt ins
      (pre ++ serU32 ver ++ [0, 1] ++ serCompact ins.length ++
        ins.flatMap serInputCore ++ serCompact outs.length ++
        outs.flatMap serOutputCore)
      (serU32 lt ++ rest)
      (by rw [hser]; simp [List.append_assoc]) hinwf]
    simp only [Option.bind_eq_bind', Option.some_bind']
    have e8 : (pre ++ serU32 ver ++ [0, 1] ++ serCompact ins.length ++
        ins.flatMap serInputCore ++ serCompact outs.length ++
        outs.flatMap serOutputCore).length +
        (ins.flatMap serWitness).length =
        (pre ++ serU32 ver ++ [0, 1] ++ serCompact ins.length ++
          ins.flatMap serInputCore ++ serCompact outs.length ++
          outs.flatMap serOutputCore ++ ins.flatMap serWitness).length := by
      simp; try omega
    rw [e8]
    rw [deserU32_rt
      (pre ++ serU32 ver ++ [0, 1] ++ serCompact ins.length ++
        ins.flatMap serInputCore ++ serCompact outs.length ++
        outs.flatMap serOutputCore ++ ins.flatMap serWitness) rest lt
      (by rw [hser]; simp [List.append_assoc]) hlt]
    simp only [Option.bind_eq_bind', Option.some_bind', Option.some.injEq,
      Prod.mk.injEq]
    refine ⟨by first | rfl | trivial, ?_⟩
    rw [hser]
    simp [serU32]
    omega

/-- `BlockHeader::deserialize_le` inverts `serialize_le` on a header
with in-range fields and 32-byte hashes. -/
theorem blockHeader_rt (h : BlockHeader) (pre rest : List Nat)
    {bytes : List Nat} (hb : bytes = pre ++ h.serializeLE ++ rest)
    (hv : h.version < 2 ^ 32) (ht : h.time < 2 ^ 32)
    (hbits : h.bits < 2 ^ 32) (hn : h.nonce < 2 ^ 32)
    (hp : h.prev_block_hash.length = 32) (hm : h.merkle_root.length = 32) :
    BlockHeader.deserializeLE bytes pre.length =
      some (h, pre.length + 80) := by
  obtain ⟨ver, prev, mr, time, bits, nonce⟩ := h
  subst hb
  have hser : BlockHeader.serializeLE ⟨ver, prev, mr, time, bits, nonce⟩ =
      serU32 ver ++ serHash prev ++ serHash mr ++ serU32 time ++
        serU32 bits ++ serU32 nonce := rfl
  rw [BlockHeader.deserializeLE]
  rw [deserU32_rt pre
    (serHash prev ++ serHash mr ++ serU32 time ++ serU32 bits ++
      serU32 nonce ++ rest) ver
    (by rw [hser]; simp [List.append_assoc]) hv]
  simp only [Option.bind_eq_bind', Option.some_bind']
  have e1 : pre.length + 4 = (pre ++ serU32 ver).length := by simp [serU32]
  rw [e1]
  rw [deserHash_rt (pre ++ serU32 ver)
    (serHash mr ++ serU32 time ++ serU32 bits ++ serU32 nonce ++ rest)
    prev (by rw [hser]; simp [List.append_assoc]) hp]
  simp only [Option.bind_eq_bind', Option.some_bind']
  have e2 : (pre ++ serU32 ver).length + 32 =
      (pre ++ serU32 ver ++ serHash prev).length := by
    simp [serHash, Hash.reverse, hp]; try omega
  rw [e2]
  rw [deserHash_rt (pre ++ serU32 ver ++ serHash prev)
    (serU32 time ++ serU32 bits ++ serU32 nonce ++ rest) mr
    (by rw [hser]; simp [List.append_assoc]) hm]
  simp only [Option.bind_eq_bind', Option.some_bind']
  have e3 : (pre ++ serU32 ver ++ serHash prev).length + 32 =
      (pre ++ serU32 ver ++ serHash prev ++ serHash mr).length := by
    simp [serHash, Hash.reverse, hm]; try omega
  rw [e3]
  rw [deserU32_rt (pre ++ serU32 ver ++ serHash prev ++ serHash mr)
    (serU32 bits ++ serU32 nonce ++ rest) time
    (by rw [hser]; simp [List.append_assoc]) ht]
  simp only [Option.bind_eq_bind', Option.some_bind']
  have e4 : (pre ++ serU32 ver ++ serHash prev ++ serHash mr).length + 4 =
      (pre ++ serU32 ver ++ serHash prev ++ serHash mr ++
        serU32 time).length := by simp [serU32]; try omega
  rw [e4]
  rw [deserU32_rt
    (pre ++ serU32 ver ++ serHash prev ++ serHash mr ++ serU32 time)
    (serU32 nonce ++ rest) bits
    (by rw [hser]; simp [List.append_assoc]) hbits]
  simp only [Option.bind_eq_bind', Option.some_bind']
  have e5 : (pre ++ serU32 ver ++ serHash prev ++ serHash mr ++
      serU32 time).length + 4 =
      (pre ++ serU32 ver ++ serHash prev ++ serHash mr ++ serU32 time ++
        serU32 bits).length := by simp [serU32]; try omega
  rw [e5]
  rw [deserU32_rt
    (pre ++ serU32 ver ++ serHash prev ++ serHash mr ++ serU32 time ++
      serU32 bits) rest nonce
    (by rw [hser]; simp [List.append_assoc]) hn]
  simp only [Option.bind_eq_bind', Option.some_bind', Option.some.injEq,
    Prod.mk.injEq]
  refine ⟨by first | rfl | trivial, ?_⟩
  simp [serU32, serHash, Hash.reverse, hp, hm]
  try omega

/-- The transaction-reading loop inverts the concatenation of
serialized well-formed transactions. -/
theorem readTransactions_rt (txs : List Transaction) :
    ∀ (pre rest : List Nat) {bytes : List Nat},
      bytes = pre ++ txs.flatMap Transaction.serializeLE ++ rest →
      (∀ tx ∈ txs, wfTx tx) →
      readTransactions bytes txs.length pre.length =
        some (txs,
          pre.length + (txs.flatMap Transaction.serializeLE).length) := by
  induction txs with
  | nil =>
    intro pre rest bytes hb _
    simp [readTransactions]
  | cons t ts ih =>
    intro pre rest bytes hb hwf
    rw [show (t :: ts).length = ts.length + 1 from rfl, readTransactions]
    rw [transaction_rt t pre (ts.flatMap Transaction.serializeLE ++ rest)
      (by rw [hb]; simp [List.append_assoc]) (hwf t (List.mem_cons_self t ts))]
    simp only [Option.bind_eq_bind', Option.some_bind']
    have e1 : pre.length + t.serializeLE.length =
        (pre ++ t.serializeLE).length := by simp
    rw [e1]
    rw [ih (pre ++ t.serializeLE) rest
      (by rw [hb]; simp [List.append_assoc])
      (fun x hx => hwf x (List.mem_cons_of_mem t hx))]
    simp only [Option.bind_eq_bind', Option.some_bind', Option.some.injEq,
      Prod.mk.injEq]
    refine ⟨by first | rfl | trivial, ?_⟩
    simp
    omega

/-- `Block::deserialize_le` inverts `serialize_le` on a well-formed
block embedded in a larger buffer. -/
theorem block_rt (b : Block) (pre rest : List Nat) {bytes : List Nat}
    (hb : bytes = pre ++ b.serializeLE ++ rest) (hwf : wfBlock b) :
    Block.deserializeLE bytes pre.length =
      some (b, pre.length + b.serializeLE.length) := by
  obtain ⟨nw, hd, txs⟩ := b
  obtain ⟨hv, ht, hbits, hn, hp, hm, htxlen, htxwf, hbody⟩ := hwf
  subst hb
  have hser : Block.serializeLE ⟨nw, hd, txs⟩ =
      nw.serializeLE ++ serU32 (blockBody ⟨nw, hd, txs⟩).length ++
        (hd.serializeLE ++ serCompact txs.length ++
          txs.flatMap Transaction.serializeLE) := by
    simp [Block.serializeLE, blockBody]
  rw [Block.deserializeLE]
  rw [networkSer_rt pre
    (serU32 (blockBody ⟨nw, hd, txs⟩).length ++
      (hd.serializeLE ++ serCompact txs.length ++
        txs.flatMap Transaction.serializeLE) ++ rest) nw
    (by rw [hser]; simp [List.append_assoc])]
  simp only [Option.bind_eq_bind', Option.some_bind']
  have e1 : pre.length + 4 = (pre ++ nw.serializeLE).length := by
    cases nw <;> simp [Network.serializeLE]
  rw [e1]
  rw [deserU32_rt (pre ++ nw.serializeLE)
    (hd.serializeLE ++ serCompact txs.length ++
      txs.flatMap Transaction.serializeLE ++ rest)
    (blockBody ⟨nw, hd, txs⟩).length
    (by rw [hser]; simp [List.append_assoc]) hbody]
  simp only [Option.bind_eq_bind', Option.some_bind']
  have e2 : (pre ++ nw.serializeLE).length + 4 =
      (pre ++ nw.serializeLE ++
        serU32 (blockBody ⟨nw, hd, txs⟩).length).length := by
    simp [serU32]; try omega
  rw [e2]
  rw [blockHeader_rt hd
    (pre ++ nw.serializeLE ++ serU32 (blockBody ⟨nw, hd, txs⟩).length)
    (serCompact txs.length ++ txs.flatMap Transaction.serializeLE ++ rest)
    (by rw [hser]; simp [List.append_assoc]) hv ht hbits hn hp hm]
  simp only [Option.bind_eq_bind', Option.some_bind']
  have e3 : (pre ++ nw.serializeLE ++
      serU32 (blockBody ⟨nw, hd, txs⟩).length).length + 80 =
      (pre ++ nw.serializeLE ++
        serU32 (blockBody ⟨nw, hd, txs⟩).length ++
        hd.serializeLE).length := by
    obtain ⟨hver, hprev, hmr, htime, hbts, hnon⟩ := hd
    simp only at hp hm
    simp [BlockHeader.serializeLE, serU32, serHash, Hash.reverse, hp, hm]
    omega
  rw [e3]
  rw [deserCompact_rt
    (pre ++ nw.serializeLE ++
      serU32 (blockBody ⟨nw, hd, txs⟩).length ++ hd.serializeLE)
    (txs.flatMap Transaction.serializeLE ++ rest) txs.length
    (by rw [hser]; simp [List.append_assoc]) htxlen]
  simp only [Option.bind_eq_bind', Option.some_bind']
  have e4 : (pre ++ nw.serializeLE ++
      serU32 (blockBody ⟨nw, hd, txs⟩).length ++ hd.serializeLE).length +
      (serCompact txs.length).length =
      (pre ++ nw.serializeLE ++
        serU32 (blockBody ⟨nw, hd, txs⟩).length ++ hd.serializeLE ++
        serCompact txs.length).length := by
    simp; try omega
  rw [e4]
  rw [readTransactions_rt txs
    (pre ++ nw.serializeLE ++
      serU32 (blockBody ⟨nw, hd, txs⟩).length ++ hd.serializeLE ++
      serCompact txs.length) rest
    (by rw [hser]; simp [List.append_assoc]) htxwf]
  simp only [Option.bind_eq_bind', Option.some_bind']
  rw [if_pos (by simp [blockBody]; omega)]
  simp only [Option.some.injEq, Prod.mk.injEq]
  refine ⟨by first | rfl | trivial, ?_⟩
  rw [hser]
  simp [blockBody]
  omega

/-- C2 (amended): `Block::serialize_le` followed by
`Block::deserialize_le` is the identity on well-formed blocks — the
parse consumes exactly the serialized bytes and returns the original
block.  (The converse direction claimed by the spec —
`serialize(deserialize(bytes)) == bytes` for every accepted byte
sequence — is false: the compact-size encoding accepts non-minimal
forms that re-serialize differently; see the counterexample.) -/
theorem serde_roundtrip_wf (b : Block) (hwf : wfBlock b) :
    Block.deserializeLE (Block.serializeLE b) 0 =
      some (b, (Block.serializeLE b).length) := by
  have h := @block_rt b [] [] (Block.serializeLE b) (by simp) hwf
  simpa using h

/-- A minimal well-formed block exercising the round-trip. -/
def wfRoundtripBlock : Block :=
  ⟨.MainNet, ⟨0, Hash.zero, Hash.zero, 0, 0, 0⟩, []⟩

theorem serde_roundtrip_wf_witness :
    wfBlock wfRoundtripBlock ∧
    Block.deserializeLE (Block.serializeLE wfRoundtripBlock) 0 =
      some (wfRoundtripBlock, (Block.serializeLE wfRoundtripBlock).length) := by
  have h : wfBlock wfRoundtripBlock :=
    ⟨by decide, by decide, by decide, by decide, by decide, by decide,
     by decide, by simp [wfRoundtripBlock], by decide⟩
  exact ⟨h, serde_roundtrip_wf wfRoundtripBlock h⟩

/-- `alookup` on a cons cell. -/
theorem alookup_cons {α : Type} (a : Hash) (x : α) (m : List (Hash × α))
    (k : Hash) :
    alookup ((a, x) :: m) k = if a = k then some x else alookup m k := by
  by_cases h : a = k
  · simp [alookup, List.find?, h]
  · simp [alookup, List.find?, h]

/-- Erasing one key leaves lookups of other keys unchanged. -/
theorem alookup_aerase_ne {α : Type} (m : List (Hash × α)) (h k : Hash)
    (hne : h ≠ k) : alookup (aerase m h) k = alookup m k := by
  induction m with
  | nil => rfl
  | cons p m ih =>
    obtain ⟨a, b⟩ := p
    by_cases ha : a = h
    · rw [aerase, List.eraseP_cons_of_pos (by simp [ha]), alookup_cons,
        if_neg (ha ▸ hne)]
    · rw [aerase, List.eraseP_cons_of_neg (by simp [ha]), alookup_cons]
      by_cases hk : a = k
      · rw [if_pos hk, alookup_cons, if_pos hk]
      · rw [if_neg hk, alookup_cons, if_neg hk]
        exact ih

/-- Looking up the key just inserted. -/
theorem alookup_ainsert_self {α : Type} (m : List (Hash × α)) (k : Hash)
    (x : α) : alookup (ainsert m k x) k = some x := by
  rw [ainsert, alookup_cons, if_pos rfl]

/-- Inserting one key leaves lookups of other keys unchanged. -/
theorem alookup_ainsert_ne {α : Type} (m : List (Hash × α)) (h k : Hash)
    (x : α) (hne : h ≠ k) : alookup (ainsert m h x) k = alookup m k := by
  rw [ainsert, alookup_cons, if_neg hne, alookup_aerase_ne m h k hne]

/-- Erasure yields a sublist. -/
theorem aerase_sublist {α : Type} (m : List (Hash × α)) (k : Hash) :
    List.Sublist (aerase m k) m :=
  List.eraseP_sublist m

/-- A lookup misses exactly when no binding carries the key. -/
theorem alookup_eq_none {α : Type} {m : List (Hash × α)} {k : Hash} :
    alookup m k = none ↔ ∀ p ∈ m, p.1 ≠ k := by
  simp [alookup, List.find?_eq_none]

/-- A missing key stays missing in any sublist. -/
theorem alookup_none_of_sublist {α : Type} {l m : List (Hash × α)}
    {k : Hash} (hs : List.Sublist l m) (h : alookup m k = none) :
    alookup l k = none := by
  rw [alookup_eq_none] at h ⊢
  exact fun p hp => h p (hs.subset hp)

/-- With duplicate-free keys, erasing a key removes it entirely. -/
theorem alookup_aerase_self {α : Type} (m : List (Hash × α)) (k : Hash) :
    (m.map Prod.fst).Nodup → alookup (aerase m k) k = none := by
  induction m with
  | nil => intro _; rfl
  | cons p m ih =>
    intro hnd
    obtain ⟨a, b⟩ := p
    simp only [List.map_cons, List.nodup_cons] at hnd
    obtain ⟨hna, hnd2⟩ := hnd
    by_cases ha : a = k
    · rw [aerase, List.eraseP_cons_of_pos (by simp [ha]),
        alookup_eq_none]
      intro p hp hpk
      exact hna (by rw [← ha] at hpk; exact hpk ▸ List.mem_map_of_mem Prod.fst hp)
    · rw [aerase, List.eraseP_cons_of_neg (by simp [ha]), alookup_cons,
        if_neg ha]
      exact ih hnd2

/-- A successful lookup exhibits a binding. -/
theorem alookup_mem {α : Type} {m : List (Hash × α)} {k : Hash} {x : α}
    (h : alookup m k = some x) : (k, x) ∈ m := by
  simp only [alookup, Option.map_eq_some'] at h
  obtain ⟨p, hp, hx⟩ := h
  obtain ⟨a, b⟩ := p
  have h1 : a = k := by simpa using List.find?_some hp
  have h2 := List.mem_of_find?_eq_some hp
  subst h1
  cases hx
  exact h2

/-- With duplicate-free keys, membership determines the lookup. -/
theorem alookup_of_mem_nodup {α : Type} {m : List (Hash × α)} {k : Hash}
    {x : α} : (m.map Prod.fst).Nodup → (k, x) ∈ m →
    alookup m k = some x := by
  induction m with
  | nil => intro _ h; cases h
  | cons p m ih =>
    intro hnd hm
    obtain ⟨a, b⟩ := p
    simp only [List.map_cons, List.nodup_cons] at hnd
    obtain ⟨hna, hnd2⟩ := hnd
    rcases List.mem_cons.mp hm with heq | htail
    · cases heq
      rw [alookup_cons, if_pos rfl]
    · have hak : a ≠ k := by
        intro rfl2
        exact hna (rfl2 ▸ List.mem_map_of_mem Prod.fst htail)
      rw [alookup_cons, if_neg hak]
      exact ih hnd2 htail

/-- Key lists of sublists inherit duplicate-freeness. -/
theorem nodup_keys_sublist {α : Type} {l m : List (Hash × α)}
    (hs : List.Sublist l m) (h : (m.map Prod.fst).Nodup) :
    (l.map Prod.fst).Nodup :=
  h.sublist (hs.map Prod.fst)

/-- With duplicate-free keys, a hit in a sublist is a hit in the whole
list. -/
theorem alookup_some_sublist {α : Type} {l m : List (Hash × α)}
    {k : Hash} {x : α} (hs : List.Sublist l m) (hnd : (m.map Prod.fst).Nodup)
    (h : alookup l k = some x) : alookup m k = some x :=
  alookup_of_mem_nodup hnd (hs.subset (alookup_mem h))

/-- The archiving loop only removes entries from the active map. -/
theorem archive_chain_active_sublist :
    ∀ (fuel : Nat) (arch : List (Hash × Nat))
      (act : List (Hash × ActiveBlock)) (h : Hash),
      List.Sublist (archive_chain fuel arch act h).2 act := by
  intro fuel
  induction fuel with
  | zero => intro arch act h; exact List.Sublist.refl _
  | succ n ih =>
    intro arch act h
    cases hl : alookup act h with
    | none => simp [archive_chain, hl]
    | some removed =>
      simp only [archive_chain, hl]
      exact (ih (ainsert arch h removed.height) (aerase act h)
        removed.block.header.prev_block_hash).trans (aerase_sublist act h)

/-- The archiving loop never touches archive entries whose key is
absent from the active map. -/
theorem archive_chain_archived_lookup :
    ∀ (fuel : Nat) (arch : List (Hash × Nat))
      (act : List (Hash × ActiveBlock)) (h k : Hash),
      alookup act k = none →
      alookup (archive_chain fuel arch act h).1 k = alookup arch k := by
  intro fuel
  induction fuel with
  | zero => intro arch act h k _; rfl
  | succ n ih =>
    intro arch act h k hk
    cases hl : alookup act h with
    | none => simp [archive_chain, hl]
    | some removed =>
      have hhk : h ≠ k := fun he => by rw [he, hk] at hl; cases hl
      simp only [archive_chain, hl]
      rw [ih _ _ _ k
        (alookup_none_of_sublist (aerase_sublist act h) hk)]
      exact alookup_ainsert_ne arch h k removed.height hhk

/-- The first node the archiving loop visits lands in the archive with
its height. -/
theorem archive_chain_first_archived (n : Nat)
    (arch : List (Hash × Nat)) (act : List (Hash × ActiveBlock))
    (f : Hash) (fb : ActiveBlock)
    (hnd : (act.map Prod.fst).Nodup) (hf : alookup act f = some fb) :
    alookup (archive_chain (n + 1) arch act f).1 f = some fb.height := by
  simp only [archive_chain, hf]
  rw [archive_chain_archived_lookup n _ _ _ f
    (alookup_aerase_self act f hnd)]
  exact alookup_ainsert_self arch f fb.height

/-- The first node the archiving loop visits leaves the active map. -/
theorem archive_chain_first_removed (n : Nat)
    (arch : List (Hash × Nat)) (act : List (Hash × ActiveBlock))
    (f : Hash) (fb : ActiveBlock)
    (hnd : (act.map Prod.fst).Nodup) (hf : alookup act f = some fb) :
    alookup (archive_chain (n + 1) arch act f).2 f = none := by
  simp only [archive_chain, hf]
  exact alookup_none_of_sublist
    (archive_chain_active_sublist n _ _ _)
    (alookup_aerase_self act f hnd)

/-- The pruning loop only inserts keys drawn from its worklist. -/
theorem prune_loop_alookup :
    ∀ (hs : List Hash) (act ret ret2 : List (Hash × ActiveBlock))
      (k : Hash), prune_loop act ret hs = some ret2 → k ∉ hs →
      alookup ret2 k = alookup ret k := by
  intro hs
  induction hs with
  | nil =>
    intro act ret ret2 k hp _
    simp only [prune_loop, Option.some.injEq] at hp
    rw [hp]
  | cons h rest ih =>
    intro act ret ret2 k hp hk
    have hhk : h ≠ k := fun he => hk (he ▸ List.mem_cons_self h rest)
    have hk2 : k ∉ rest := fun hm => hk (List.mem_cons_of_mem h hm)
    simp only [prune_loop] at hp
    split at hp
    · cases hp
    · split at hp
      · split at hp
        · rename_i root heq hsome ab ha
          rw [ih _ _ _ k hp hk2]
          exact alookup_ainsert_ne ret h k ab hhk
        · cases hp
      · exact ih _ _ _ k hp hk2

/-- One parent link through the active map: the `prev_block_hash` of the
node's block (`self.active_blocks.get(..).block.header.prev_block_hash`
in src/validator.rs). -/
def parent_link (active : List (Hash × ActiveBlock)) (h : Hash) :
    Option Hash :=
  (alookup active h).map fun ab => ab.block.header.prev_block_hash

/-- Following `n` parent links up from `h` through the active map. -/
def iterate_up (active : List (Hash × ActiveBlock)) :
    Nat → Hash → Option Hash
  | 0, h => some h
  | n + 1, h => (parent_link active h).bind (iterate_up active n)

/-- The first loop of `archive_old_blocks` computes the nodes `n` and
`n + 1` parent links up from the start: after the walk `active_root` is
`n` links up and `iter_hash` is `n + 1` links up. -/
theorem walk_up_of_iterate (active : List (Hash × ActiveBlock)) :
    ∀ (n : Nat) (a h r f : Hash), iterate_up active n h = some r →
      iterate_up active (n + 1) h = some f →
      walk_up active (n + 1) (a, h) = some (r, f) := by
  intro n
  induction n with
  | zero =>
    intro a h r f h0 h1
    have hr : r = h := by
      simpa [iterate_up] using h0.symm
    simp only [iterate_up, parent_link] at h1
    cases hl : alookup active h with
    | none => rw [hl] at h1; simp at h1
    | some ab =>
      rw [hl] at h1
      simp only [Option.map_some', Option.some_bind] at h1
      have hpf : ab.block.header.prev_block_hash = f := by
        simpa [iterate_up] using h1
      simp [walk_up, hl, hr, hpf]
  | succ n ih =>
    intro a h r f h0 h1
    simp only [iterate_up, parent_link] at h0 h1
    cases hl : alookup active h with
    | none => rw [hl] at h0; simp at h0
    | some ab =>
      rw [hl] at h0 h1
      simp only [Option.map_some', Option.some_bind] at h0 h1
      simp only [walk_up, hl]
      exact ih h ab.block.header.prev_block_hash r f h0 h1

/-- C6 (amended): when `archive_old_blocks` runs from a new leaf, the
node reached by following `MAX_ACTIVE_HEIGHT - 1 = 143` parent links up
from the leaf is the active root: it survives the rebuild of the active
map with its original entry.  The node `MAX_ACTIVE_HEIGHT = 144` links
up — the active root's parent — is the first node moved into the
archived set (keyed with its height) and leaves the active map.  The
spec places the boundary one link too high: it says the node 144 links
up remains active; in the code that node is the first one archived. -/
theorem archive_boundary_amended (v : BlockValidator) (leaf r f : Hash)
    (fb : ActiveBlock) (v2 : BlockValidator)
    (hnd : (v.active_blocks.map Prod.fst).Nodup)
    (hr : iterate_up v.active_blocks (MAX_ACTIVE_HEIGHT - 1) leaf = some r)
    (hf : iterate_up v.active_blocks MAX_ACTIVE_HEIGHT leaf = some f)
    (hfb : alookup v.active_blocks f = some fb)
    (hrf : r ≠ f)
    (harch : archive_old_blocks v leaf = some v2) :
    alookup v2.active_blocks r = alookup v.active_blocks r ∧
    (alookup v2.active_blocks r).isSome ∧
    alookup v2.active_blocks f = none ∧
    alookup v2.archived_blocks f = some fb.height := by
  have hr2 : iterate_up v.active_blocks 143 leaf = some r := by
    simpa [MAX_ACTIVE_HEIGHT] using hr
  have hf2 : iterate_up v.active_blocks 144 leaf = some f := by
    simpa [MAX_ACTIVE_HEIGHT] using hf
  have hwalk : walk_up v.active_blocks MAX_ACTIVE_HEIGHT (leaf, leaf) =
      some (r, f) := by
    simpa [MAX_ACTIVE_HEIGHT] using
      walk_up_of_iterate v.active_blocks 143 leaf leaf r f hr2 hf2
  rw [archive_old_blocks, hwalk] at harch
  simp only [Option.bind_eq_bind', Option.some_bind'] at harch
  rcases hAC : archive_chain (v.active_blocks.length + 1) v.archived_blocks
      v.active_blocks f with ⟨archived2, active2⟩
  rw [hAC] at harch
  have hact2 : List.Sublist active2 v.active_blocks := by
    have := archive_chain_active_sublist (v.active_blocks.length + 1)
      v.archived_blocks v.active_blocks f
    rw [hAC] at this
    exact this
  have hnd2 : (active2.map Prod.fst).Nodup := nodup_keys_sublist hact2 hnd
  cases hR : alookup active2 r with
  | none => rw [hR] at harch; simp at harch
  | some rootBlock =>
    rw [hR] at harch
    simp only [Option.bind_eq_bind', Option.some_bind', Option.pure_def,
      Option.some.injEq] at harch
    cases hP : prune_loop (aerase active2 r) [(r, rootBlock)]
        ((aerase active2 r).map Prod.fst) with
    | none => rw [hP] at harch; simp at harch
    | some retained =>
      rw [hP] at harch
      simp only [Option.some_bind', Option.some.injEq] at harch
      rcases harch with rfl
      have hseed_r : alookup (aerase active2 r) r = none :=
        alookup_aerase_self active2 r hnd2
      have hr_nm : r ∉ (aerase active2 r).map Prod.fst := by
        intro hm
        obtain ⟨p, hp, hpk⟩ := List.mem_map.mp hm
        exact (alookup_eq_none.mp hseed_r) p hp hpk
      have hretr : alookup retained r = some rootBlock := by
        rw [prune_loop_alookup _ _ _ _ r hP hr_nm, alookup_cons,
          if_pos rfl]
      have hvr : alookup v.active_blocks r = some rootBlock :=
        alookup_some_sublist hact2 hnd hR
      have hfarch : alookup archived2 f = some fb.height := by
        have := archive_chain_first_archived v.active_blocks.length
          v.archived_blocks v.active_blocks f fb hnd hfb
        rw [hAC] at this
        exact this
      have hfact2 : alookup active2 f = none := by
        have := archive_chain_first_removed v.active_blocks.length
          v.archived_blocks v.active_blocks f fb hnd hfb
        rw [hAC] at this
        exact this
      have hf_nm : f ∉ (aerase active2 r).map Prod.fst := by
        intro hm
        obtain ⟨p, hp, hpk⟩ := List.mem_map.mp hm
        exact (alookup_eq_none.mp
          (alookup_none_of_sublist (aerase_sublist active2 r) hfact2))
          p hp hpk
      have hretf : alookup retained f = none := by
        rw [prune_loop_alookup _ _ _ _ f hP hf_nm, alookup_cons,
          if_neg hrf]
        rfl
      exact ⟨hretr.trans hvr.symm, by simp [hretr], hretf, hfarch⟩

/-- One block of the linear counterexample chain: node `k` has hash
`[k]`, height `k`, and parent `[k - 1]` (the genesis node 0 has the
zero parent hash). -/
def cexHeader (k : Nat) : BlockHeader :=
  ⟨0, if k = 0 then Hash.zero else [k - 1], Hash.zero, 0, 0x220000ff, 0⟩

def cexChainBlock (k : Nat) : Block := ⟨.MainNet, cexHeader k, []⟩

/-- The new leaf at height 144: parent `[143]`, id `[200]` under
`cexSha`. -/
def cexLeafBlock : Block :=
  ⟨.MainNet, ⟨0, [143], Hash.zero, 1, 0x220000ff, 0⟩, []⟩

/-- A SHA primitive making the leaf's id `[200]` (below every
difficulty target whose leading byte is 255). -/
def cexSha : Sha := fun _ => [200]

/-- The validator holding the 144-block linear chain, heights 0–143. -/
def cexV0 : BlockValidator :=
  ⟨[], (List.range 144).map fun k => ([k], ⟨cexChainBlock k, k⟩)⟩

/-- The validator after the leaf is attached at height 144 (the state
`archive_old_blocks` sees). -/
def cexV1 : BlockValidator :=
  ⟨[], ([200], ⟨cexLeafBlock, 144⟩) ::
    (List.range 144).map fun k => ([k], ⟨cexChainBlock k, k⟩)⟩

/-- The archive-and-prune result on the counterexample chain. -/
def cexV2 : BlockValidator := (archive_old_blocks cexV1 [200]).getD default

/-- C6 counterexample: on a 145-node linear chain, the node reached by
following 144 parent links up from the new leaf is the genesis node
`[0]`; `handle_block` accepts the leaf (`Valid`) and triggers
archive-and-prune, after which `[0]` is NOT in the active map — it is
the first archived node — while the node 143 links up (`[1]`) remains
active as the new root. -/
theorem archive_boundary_claim_counterexample :
    Block.id cexSha cexLeafBlock = [200] ∧
    iterate_up (ainsert cexV0.active_blocks [200] ⟨cexLeafBlock, 144⟩)
      MAX_ACTIVE_HEIGHT [200] = some [0] ∧
    ((handle_block cexSha (some 9999999999) cexV0 cexLeafBlock).map
      fun p => (p.2, alookup p.1.active_blocks [0],
        alookup p.1.archived_blocks [0],
        (alookup p.1.active_blocks [1]).isSome)) =
      some (.Valid [200], none, some 0, true) := by
  decide

theorem archive_boundary_amended_witness :
    ((cexV1.active_blocks.map Prod.fst).Nodup ∧
      iterate_up cexV1.active_blocks (MAX_ACTIVE_HEIGHT - 1) [200] =
        some [1] ∧
      iterate_up cexV1.active_blocks MAX_ACTIVE_HEIGHT [200] = some [0] ∧
      alookup cexV1.active_blocks [0] = some ⟨cexChainBlock 0, 0⟩ ∧
      ([1] : Hash) ≠ [0] ∧
      archive_old_blocks cexV1 [200] = some cexV2) ∧
    alookup cexV2.active_blocks [1] = alookup cexV1.active_blocks [1] ∧
    (alookup cexV2.active_blocks [1]).isSome ∧
    alookup cexV2.active_blocks [0] = none ∧
    alookup cexV2.archived_blocks [0] = some 0 := by
  have h1 : (cexV1.active_blocks.map Prod.fst).Nodup := by decide
  have h2 : iterate_up cexV1.active_blocks (MAX_ACTIVE_HEIGHT - 1) [200] =
      some [1] := by decide
  have h3 : iterate_up cexV1.active_blocks MAX_ACTIVE_HEIGHT [200] =
      some [0] := by decide
  have h4 : alookup cexV1.active_blocks [0] =
      some ⟨cexChainBlock 0, 0⟩ := by decide
  have h5 : archive_old_blocks cexV1 [200] = some cexV2 := by decide
  have h6 : ([1] : Hash) ≠ [0] := by decide
  exact ⟨⟨h1, h2, h3, h4, h6, h5⟩,
    archive_boundary_amended cexV1 [200] [1] [0] ⟨cexChainBlock 0, 0⟩
      cexV2 h1 h2 h3 h4 h6 h5⟩

end Blockparse
